import Mathlib

/-!
Verification of the lyric-to-caption alignment core of the Youtube-Romaji
repository, as a shallow embedding in Lean 4.

Strings are modelled as lists of Unicode scalar values (Lean `Char`);
JavaScript numbers are modelled as exact rationals (`ℚ`), and array indices
as naturals.  Each definition is translated from the JavaScript source:
  - `normalizeText` from src/server/index.js (normalizeText),
  - `normalizeLine` from src/tools/romaji-timestamp-gui/renderer.js,
  - the reference-line filters from alignLyricsToSubtitles / alignByPosition,
  - the DP aligner from alignSequencesSync / alignSequences (renderer.js),
  - generateTimedSegments (renderer.js),
  - the content-matching loop and alignByPosition from src/server/index.js.
-/

namespace YtRomaji

/-- The JavaScript regular-expression whitespace class (the set matched by
a backslash-s atom): tab, LF, VT, FF, CR, space, NBSP, and the Unicode
space separators.  This is also the character set removed by
String.prototype.trim. -/
def isWsJS (c : Char) : Bool :=
  c == '\t' || c == '\n' || c == Char.ofNat 11 || c == Char.ofNat 12 ||
  c == '\r' || c == ' ' || c == Char.ofNat 0xa0 || c == Char.ofNat 0x1680 ||
  (0x2000 ≤ c.toNat && c.toNat ≤ 0x200a) ||
  c == Char.ofNat 0x2028 || c == Char.ofNat 0x2029 || c == Char.ofNat 0x202f ||
  c == Char.ofNat 0x205f || c == Char.ofNat 0x3000 || c == Char.ofNat 0xfeff

/-- The JavaScript word class (a backslash-w atom): ASCII letters, digits
and underscore. -/
def isWordJS (c : Char) : Bool :=
  ('a' ≤ c && c ≤ 'z') || ('A' ≤ c && c ≤ 'Z') || ('0' ≤ c && c ≤ '9') || c == '_'

/-- The JavaScript digit class (a backslash-d atom). -/
def isDigitJS (c : Char) : Bool :=
  '0' ≤ c && c ≤ '9'

/-- Character-wise model of String.prototype.toLowerCase restricted to the
basic latin range (the alignment code only compares romanized / ASCII
text after normalization, so the ASCII mapping is the relevant part). -/
def jsToLower (c : Char) : Char :=
  if 65 ≤ c.toNat ∧ c.toNat ≤ 90 then Char.ofNat (c.toNat + 32) else c

/-- The punctuation set removed by normalizeLine in renderer.js:
period, comma, bang, question mark, semicolon, colon, quotes, parens,
braces and square brackets. -/
def isPunctGui (c : Char) : Bool :=
  c == '.' || c == ',' || c == '!' || c == '?' || c == ';' || c == ':' ||
  c == Char.ofNat 39 || c == Char.ofNat 34 || c == '(' || c == ')' ||
  c == Char.ofNat 123 || c == Char.ofNat 125 || c == Char.ofNat 91 ||
  c == Char.ofNat 93

/-- Replace every maximal run of whitespace by a single space, as the
global regex replacement of whitespace-runs by one space does.  The flag
records whether the previously emitted character closed a whitespace run. -/
def collapseWs : List Char → Bool → List Char
  | [], _ => []
  | c :: rest, prevWs =>
    if isWsJS c then
      if prevWs then collapseWs rest true
      else ' ' :: collapseWs rest true
    else c :: collapseWs rest false

/-- String.prototype.trim on a character list: drop whitespace from both
ends. -/
def jsTrim (l : List Char) : List Char :=
  (l.dropWhile isWsJS).rdropWhile isWsJS

/-- Shared shape of both normalizers: lower-case, keep only the characters
accepted by keep, collapse whitespace runs to a single space, trim. -/
def normCore (keep : Char → Bool) (l : List Char) : List Char :=
  jsTrim (collapseWs ((l.map jsToLower).filter keep) false)

/-- Model of normalizeText from src/server/index.js: lower-case, remove
every character outside the word/space classes, collapse whitespace,
trim. -/
def normalizeTextL (l : List Char) : List Char :=
  normCore (fun c => isWordJS c || isWsJS c) l

/-- Model of normalizeLine from renderer.js: lower-case, remove a fixed
punctuation set, collapse whitespace, trim. -/
def normalizeLineL (l : List Char) : List Char :=
  normCore (fun c => !isPunctGui c) l

/-- String-level wrapper for normalizeText. -/
def normalizeText (s : String) : String :=
  ⟨normalizeTextL s.data⟩

/-- String-level wrapper for normalizeLine. -/
def normalizeLine (s : String) : String :=
  ⟨normalizeLineL s.data⟩

theorem toNat_ofNat_valid (n : Nat) (h : n.isValidChar) : (Char.ofNat n).toNat = n := by
  simp [Char.ofNat, h, Char.ofNatAux, Char.toNat, UInt32.toNat]

theorem jsToLower_idem (c : Char) : jsToLower (jsToLower c) = jsToLower c := by
  unfold jsToLower
  split
  · rename_i h
    have hv : (c.toNat + 32).isValidChar := Or.inl (by omega)
    rw [if_neg]
    rw [toNat_ofNat_valid _ hv]
    omega
  · rfl

/-- No two adjacent characters are both whitespace. -/
def NoWsRun (l : List Char) : Prop :=
  l.Chain' (fun a b => ¬(isWsJS a = true ∧ isWsJS b = true))

/-- Every whitespace character is a plain space. -/
def WsIsSpace (l : List Char) : Prop :=
  ∀ c ∈ l, isWsJS c = true → c = ' '

/-- The head, if any, is not whitespace. -/
def HeadNotWs (l : List Char) : Prop :=
  ∀ c ∈ l.head?, isWsJS c = false

theorem headNotWs_nil : HeadNotWs ([] : List Char) := by
  intro c hc
  simp at hc

theorem collapseWs_cons_ws_true {c : Char} (h : isWsJS c = true) (rest : List Char) :
    collapseWs (c :: rest) true = collapseWs rest true := by
  simp [collapseWs, h]

theorem collapseWs_cons_ws_false {c : Char} (h : isWsJS c = true) (rest : List Char) :
    collapseWs (c :: rest) false = ' ' :: collapseWs rest true := by
  simp [collapseWs, h]

theorem collapseWs_cons_not_ws {c : Char} (h : isWsJS c = false) (rest : List Char) (b : Bool) :
    collapseWs (c :: rest) b = c :: collapseWs rest false := by
  simp [collapseWs, h]

theorem mem_collapseWs {c : Char} : ∀ {l : List Char} {b : Bool},
    c ∈ collapseWs l b → c = ' ' ∨ c ∈ l := by
  intro l
  induction l with
  | nil => intro b h; simp [collapseWs] at h
  | cons d rest ih =>
    intro b h
    by_cases hd : isWsJS d = true
    · cases b with
      | true =>
        rw [collapseWs_cons_ws_true hd] at h
        rcases ih h with h' | h'
        · exact Or.inl h'
        · exact Or.inr (List.mem_cons_of_mem _ h')
      | false =>
        rw [collapseWs_cons_ws_false hd] at h
        rcases List.mem_cons.1 h with h' | h'
        · exact Or.inl h'
        · rcases ih h' with h'' | h''
          · exact Or.inl h''
          · exact Or.inr (List.mem_cons_of_mem _ h'')
    · have hd' : isWsJS d = false := by simpa using hd
      rw [collapseWs_cons_not_ws hd'] at h
      rcases List.mem_cons.1 h with h' | h'
      · exact Or.inr (by simp [h'])
      · rcases ih h' with h'' | h''
        · exact Or.inl h''
        · exact Or.inr (List.mem_cons_of_mem _ h'')

theorem headNotWs_collapseWs_true : ∀ l : List Char, HeadNotWs (collapseWs l true) := by
  intro l
  induction l with
  | nil => exact headNotWs_nil
  | cons d rest ih =>
    by_cases hd : isWsJS d = true
    · rw [collapseWs_cons_ws_true hd]
      exact ih
    · have hd' : isWsJS d = false := by simpa using hd
      rw [collapseWs_cons_not_ws hd']
      intro c hc
      simp at hc
      rw [← hc]
      exact hd'

theorem wsIsSpace_collapseWs : ∀ (l : List Char) (b : Bool), WsIsSpace (collapseWs l b) := by
  intro l
  induction l with
  | nil => intro b c hc; simp [collapseWs] at hc
  | cons d rest ih =>
    intro b c hc hws
    by_cases hd : isWsJS d = true
    · cases b with
      | true =>
        rw [collapseWs_cons_ws_true hd] at hc
        exact ih true c hc hws
      | false =>
        rw [collapseWs_cons_ws_false hd] at hc
        rcases List.mem_cons.1 hc with h | h
        · exact h
        · exact ih true c h hws
    · have hd' : isWsJS d = false := by simpa using hd
      rw [collapseWs_cons_not_ws hd'] at hc
      rcases List.mem_cons.1 hc with h | h
      · rw [h] at hws
        rw [hd'] at hws
        exact absurd hws (by simp)
      · exact ih false c h hws

theorem noWsRun_collapseWs : ∀ (l : List Char) (b : Bool), NoWsRun (collapseWs l b) := by
  intro l
  induction l with
  | nil => intro b; simp [collapseWs, NoWsRun]
  | cons d rest ih =>
    intro b
    by_cases hd : isWsJS d = true
    · cases b with
      | true =>
        rw [NoWsRun, collapseWs_cons_ws_true hd]
        exact ih true
      | false =>
        rw [NoWsRun, collapseWs_cons_ws_false hd]
        refine List.chain'_cons'.2 ⟨?_, ih true⟩
        intro y hy
        have := headNotWs_collapseWs_true rest y hy
        simp [this]
    · have hd' : isWsJS d = false := by simpa using hd
      rw [NoWsRun, collapseWs_cons_not_ws hd']
      refine List.chain'_cons'.2 ⟨?_, ih false⟩
      intro y hy hcon
      rw [hd'] at hcon
      exact absurd hcon.1 (by simp)

theorem collapseWs_eq_self : ∀ (l : List Char) (b : Bool),
    WsIsSpace l → NoWsRun l → (b = true → HeadNotWs l) → collapseWs l b = l := by
  intro l
  induction l with
  | nil => intro b _ _ _; simp [collapseWs]
  | cons d rest ih =>
    intro b hsp hrun hhead
    by_cases hd : isWsJS d = true
    · have hb : b = false := by
        cases b with
        | false => rfl
        | true =>
          have := hhead rfl d (by simp)
          rw [this] at hd
          simp at hd
      subst hb
      have hd' : d = ' ' := hsp d (by simp) hd
      rw [collapseWs_cons_ws_false hd, hd']
      congr 1
      refine ih true (fun c hc => hsp c (List.mem_cons_of_mem _ hc)) hrun.tail ?_
      intro _ c hc
      cases rest with
      | nil => simp at hc
      | cons e tl =>
        simp at hc
        subst hc
        have hpair := (List.chain'_cons.1 hrun).1
        by_contra hcon
        exact hpair ⟨hd, by simpa using hcon⟩
    · have hd' : isWsJS d = false := by simpa using hd
      rw [collapseWs_cons_not_ws hd']
      congr 1
      exact ih false (fun c hc => hsp c (List.mem_cons_of_mem _ hc)) hrun.tail (by simp)

/-- The last character, if any, is not whitespace. -/
def LastNotWs (l : List Char) : Prop :=
  ∀ h : l ≠ [], isWsJS (l.getLast h) = false

theorem headNotWs_dropWhile (l : List Char) : HeadNotWs (l.dropWhile isWsJS) := by
  induction l with
  | nil => exact headNotWs_nil
  | cons d rest ih =>
    by_cases hd : isWsJS d = true
    · rw [List.dropWhile_cons_of_pos hd]
      exact ih
    · have hd' : isWsJS d = false := by simpa using hd
      rw [List.dropWhile_cons_of_neg hd]
      intro c hc
      simp at hc
      rw [← hc]
      exact hd'

theorem headNotWs_of_prefix {l₁ l₂ : List Char} (h : l₁ <+: l₂) (hh : HeadNotWs l₂) :
    HeadNotWs l₁ := by
  obtain ⟨s, rfl⟩ := h
  cases l₁ with
  | nil => exact headNotWs_nil
  | cons d rest =>
    intro c hc
    exact hh c (by simpa using hc)

theorem jsTrim_sublist (l : List Char) : (jsTrim l).Sublist l :=
  (( List.rdropWhile_prefix isWsJS _).sublist).trans ((List.dropWhile_suffix isWsJS).sublist)

theorem headNotWs_jsTrim (l : List Char) : HeadNotWs (jsTrim l) :=
  headNotWs_of_prefix ( List.rdropWhile_prefix isWsJS _) (headNotWs_dropWhile l)

theorem lastNotWs_jsTrim (l : List Char) : LastNotWs (jsTrim l) := by
  intro h
  have := List.rdropWhile_last_not isWsJS (l.dropWhile isWsJS) h
  simpa using this

theorem jsTrim_eq_self {l : List Char} (hh : HeadNotWs l) (hl : LastNotWs l) :
    jsTrim l = l := by
  unfold jsTrim
  have h1 : l.dropWhile isWsJS = l := by
    rw [List.dropWhile_eq_self_iff]
    intro hlen
    cases l with
    | nil => simp at hlen
    | cons d rest =>
      have := hh d (by simp)
      simp [this]
  rw [h1, List.rdropWhile_eq_self_iff]
  intro hne
  rw [hl hne]
  simp

theorem noWsRun_jsTrim {l : List Char} (h : NoWsRun l) : NoWsRun (jsTrim l) :=
  List.Chain'.prefix (h.suffix (List.dropWhile_suffix isWsJS)) ( List.rdropWhile_prefix isWsJS _)

theorem wsIsSpace_of_sublist {l₁ l₂ : List Char} (hs : l₁.Sublist l₂) (h : WsIsSpace l₂) :
    WsIsSpace l₁ :=
  fun c hc hws => h c (hs.mem hc) hws

theorem normCore_idem (keep : Char → Bool) (hsp : keep ' ' = true) (l : List Char) :
    normCore keep (normCore keep l) = normCore keep l := by
  have hsub : (normCore keep l).Sublist (collapseWs ((l.map jsToLower).filter keep) false) :=
    jsTrim_sublist _
  have hchars : ∀ c ∈ normCore keep l, c = ' ' ∨ c ∈ (l.map jsToLower).filter keep :=
    fun c hc => mem_collapseWs (hsub.mem hc)
  have hlower : ∀ c ∈ normCore keep l, jsToLower c = c := by
    intro c hc
    rcases hchars c hc with h | h
    · rw [h]
      rfl
    · obtain ⟨d, _, rfl⟩ := List.mem_map.1 (List.mem_of_mem_filter h)
      exact jsToLower_idem d
  have hkeep : ∀ c ∈ normCore keep l, keep c = true := by
    intro c hc
    rcases hchars c hc with h | h
    · rw [h]; exact hsp
    · exact List.of_mem_filter h
  have hmap : (normCore keep l).map jsToLower = normCore keep l := by
    rw [List.map_congr_left hlower]
    exact List.map_id _
  have hfilter : (normCore keep l).filter keep = normCore keep l :=
    List.filter_eq_self.2 hkeep
  have hgood1 : WsIsSpace (normCore keep l) :=
    wsIsSpace_of_sublist hsub (wsIsSpace_collapseWs _ _)
  have hgood2 : NoWsRun (normCore keep l) :=
    noWsRun_jsTrim (noWsRun_collapseWs _ _)
  have hhead : HeadNotWs (normCore keep l) := headNotWs_jsTrim _
  have hlast : LastNotWs (normCore keep l) := lastNotWs_jsTrim _
  conv_lhs => rw [normCore]
  rw [hmap, hfilter, collapseWs_eq_self _ false hgood1 hgood2 (fun h => absurd h (by simp)),
    jsTrim_eq_self hhead hlast]

/-- C8: both text normalizers (normalizeText in src/server/index.js and
normalizeLine in renderer.js) are total pure functions and idempotent:
normalizing twice equals normalizing once, for every string. -/
theorem normalizers_idempotent (s : String) :
    normalizeText (normalizeText s) = normalizeText s ∧
    normalizeLine (normalizeLine s) = normalizeLine s := by
  constructor
  · show (⟨normalizeTextL (normalizeTextL s.data)⟩ : String) = ⟨normalizeTextL s.data⟩
    exact congrArg String.mk (normCore_idem _ (by rfl) s.data)
  · show (⟨normalizeLineL (normalizeLineL s.data)⟩ : String) = ⟨normalizeLineL s.data⟩
    exact congrArg String.mk (normCore_idem _ (by rfl) s.data)

/-- Characters matched by the regex dot atom (anything but a line
terminator). -/
def jsDot (c : Char) : Bool :=
  !(c == '\n' || c == '\r' || c == Char.ofNat 0x2028 || c == Char.ofNat 0x2029)

/-- Model of the anchored regex dropping metadata headers: an opening
square bracket, dotted characters containing a colon, a closing square
bracket.  A leading bracket, a trailing bracket, an inner colon, and all
inner characters matchable by dot is exactly when the regex matches,
since the colon itself is a dot character. -/
def matchMetaHeader (l : List Char) : Bool :=
  l.head? == some (Char.ofNat 91) && l.getLast? == some (Char.ofNat 93) &&
  ((l.drop 1).dropLast.all jsDot && (l.drop 1).dropLast.any (· == ':'))

/-- Model of the anchored regex dropping bracketed lines that contain a
Japanese corner quote. -/
def matchJpBracket (l : List Char) : Bool :=
  l.head? == some (Char.ofNat 91) && l.getLast? == some (Char.ofNat 93) &&
  ((l.drop 1).dropLast.all jsDot &&
   (l.drop 1).dropLast.any (fun c => c == '「' || c == '」'))

/-- The fixed structural section names of the section-marker regexes. -/
def sectionNames : List (List Char) :=
  ["intro".data, "outro".data, "verse".data, "chorus".data, "bridge".data,
   "refrain".data, "breakdown".data, "pre-chorus".data, "post-chorus".data]

/-- Model of the case-insensitive anchored section-marker regex: a
bracketed section name, optionally (when allowNumber is set, as in the
content-matching path) followed by whitespace and digits.  The
position-fallback path uses the variant without the number suffix. -/
def matchSection (allowNumber : Bool) (l : List Char) : Bool :=
  l.head? == some (Char.ofNat 91) && l.getLast? == some (Char.ofNat 93) &&
  (let inner := ((l.drop 1).dropLast).map jsToLower
   sectionNames.any (fun name =>
     name.isPrefixOf inner &&
     (let r := inner.drop name.length
      r.isEmpty ||
        (allowNumber && !(r.takeWhile isWsJS).isEmpty &&
         !(r.dropWhile isWsJS).isEmpty && (r.dropWhile isWsJS).all isDigitJS))))

/-- Keep predicate of the reference-line filter on the content-matching
path of alignLyricsToSubtitles (src/server/index.js). -/
def keepLineContent (l : List Char) : Bool :=
  !l.isEmpty && !matchMetaHeader l && !matchSection true l && !matchJpBracket l

/-- Keep predicate of the reference-line filter on the position-fallback
path alignByPosition (src/server/index.js): no number suffix on section
names and no corner-quote rule. -/
def keepLineFallback (l : List Char) : Bool :=
  !l.isEmpty && !matchMetaHeader l && !matchSection false l

/-- The content-matching path's line filter: split the raw reference text
on newlines, trim each line, keep the lines passing keepLineContent. -/
def filterLyricsContent (raw : List Char) : List (List Char) :=
  ((raw.splitOn '\n').map jsTrim).filter keepLineContent

/-- The position-fallback path's line filter. -/
def filterLyricsFallback (raw : List Char) : List (List Char) :=
  ((raw.splitOn '\n').map jsTrim).filter keepLineFallback

theorem filter_sublist_filter_of_imp {α : Type} (p q : α → Bool)
    (h : ∀ a, p a = true → q a = true) :
    ∀ l : List α, (l.filter p).Sublist (l.filter q) := by
  intro l
  induction l with
  | nil => simp
  | cons d rest ih =>
    by_cases hd : p d = true
    · rw [List.filter_cons_of_pos hd, List.filter_cons_of_pos (h d hd)]
      exact ih.cons₂ d
    · rw [List.filter_cons_of_neg hd]
      by_cases hq : q d = true
      · rw [List.filter_cons_of_pos hq]
        exact ih.cons d
      · rw [List.filter_cons_of_neg hq]
        exact ih

theorem keepLineContent_imp_fallback :
    ∀ l, keepLineContent l = true → keepLineFallback l = true := by
  intro l h
  unfold keepLineContent at h
  unfold keepLineFallback
  simp only [Bool.and_eq_true, Bool.not_eq_true'] at h ⊢
  refine ⟨⟨h.1.1.1, h.1.1.2⟩, ?_⟩
  by_contra hc
  have hc' : matchSection false l = true := by simpa using hc
  have : matchSection true l = true := by
    unfold matchSection at hc' ⊢
    simp only [Bool.and_eq_true] at hc' ⊢
    refine ⟨⟨hc'.1.1, hc'.1.2⟩, ?_⟩
    have := hc'.2
    rw [List.any_eq_true] at this ⊢
    obtain ⟨name, hname, hcond⟩ := this
    refine ⟨name, hname, ?_⟩
    simp only [Bool.and_eq_true, Bool.or_eq_true] at hcond ⊢
    refine ⟨hcond.1, ?_⟩
    rcases hcond.2 with h' | h'
    · exact Or.inl h'
    · simp at h'
  rw [h.1.2] at this
  simp at this

/-- C5 counterexample: a numbered section marker is dropped by the
content-matching path's filter but retained by the position-fallback
path's filter, so the two filter implementations are not the same. -/
theorem lineFilter_not_same_both_places :
    filterLyricsContent "[Verse 2]".data = [] ∧
    filterLyricsFallback "[Verse 2]".data = ["[Verse 2]".data] := by
  constructor <;> rfl

/-- C5 amended: both places split on newlines, trim each line, and drop
empty lines, metadata headers, and bracketed section names — but only the
content-matching path additionally drops numbered section variants and
corner-quote bracketed lines; the fallback path retains those, and keeps
every line the content path keeps, in the same order. -/
theorem lineFilter_characterization (raw : List Char) :
    (filterLyricsContent raw).Sublist (filterLyricsFallback raw) ∧
    filterLyricsContent raw = ((raw.splitOn '\n').map jsTrim).filter
      (fun l => !(l.isEmpty || matchMetaHeader l || matchSection true l || matchJpBracket l)) ∧
    filterLyricsFallback raw = ((raw.splitOn '\n').map jsTrim).filter
      (fun l => !(l.isEmpty || matchMetaHeader l || matchSection false l)) := by
  refine ⟨filter_sublist_filter_of_imp _ _ keepLineContent_imp_fallback _, ?_, ?_⟩
  · unfold filterLyricsContent
    congr 1
    funext l
    unfold keepLineContent
    cases l.isEmpty <;> cases matchMetaHeader l <;> cases matchSection true l <;>
      cases matchJpBracket l <;> rfl
  · unfold filterLyricsFallback
    congr 1
    funext l
    unfold keepLineFallback
    cases l.isEmpty <;> cases matchMetaHeader l <;> cases matchSection false l <;> rfl

/-- Result shape of the server-side aligners, with the fields the
JavaScript result objects carry on each path. -/
structure AlignResult where
  ok : Bool
  aligned : Option (List (List Char)) := none
  confidence : Option ℚ := none
  method : Option String := none
  reason : Option String := none
  deriving Repr, DecidableEq

/-- Slice of a list between two indices, as Array.prototype.slice. -/
def jsSlice {α : Type} (l : List α) (s e : Nat) : List α :=
  (l.take e).drop s

/-- Model of alignByPosition from src/server/index.js: filter the raw
reference text, then proportionally map reference lines onto the donor
cues by the ratio of the two lengths, with a fixed 0.70 confidence. -/
def alignByPosition (raw : List Char) (subs : List (List Char)) : AlignResult :=
  let lyricsLines := filterLyricsFallback raw
  if lyricsLines.isEmpty then
    { ok := false, reason := some "no_lyric_lines" }
  else
    let ratio : ℚ := (lyricsLines.length : ℚ) / (subs.length : ℚ)
    let aligned : List (List Char) :=
      if ratio < 1 then
        (List.range subs.length).map (fun (i : Nat) =>
          lyricsLines.getD (min ⌊(i : ℚ) * ratio⌋₊ (lyricsLines.length - 1)) [])
      else if 1 ≤ ratio ∧ ratio ≤ 3/2 then
        (List.range subs.length).map (fun (i : Nat) =>
          let startIdx := ⌊(i : ℚ) * ratio⌋₊
          let endIdx := ⌊((i : ℚ) + 1) * ratio⌋₊
          let linesToCombine := jsSlice lyricsLines startIdx (min endIdx lyricsLines.length)
          if 1 < linesToCombine.length then
            List.intercalate ", ".data linesToCombine
          else if linesToCombine.length = 1 then
            linesToCombine.getD 0 []
          else
            lyricsLines.getD (lyricsLines.length - 1) [])
      else
        (List.range subs.length).map (fun (i : Nat) =>
          lyricsLines.getD (min ⌊(i : ℚ) * ratio⌋₊ (lyricsLines.length - 1)) [])
    { ok := true, aligned := some aligned, confidence := some (7/10),
      method := some "position-fallback" }

/-- The lyric-to-cue ratio used by the position aligner. -/
def posRatio (raw : List Char) (subs : List (List Char)) : ℚ :=
  ((filterLyricsFallback raw).length : ℚ) / (subs.length : ℚ)

/-- Clamped proportional index used when spreading reference lines. -/
def posSpreadIdx (raw : List Char) (subs : List (List Char)) (i : Nat) : Nat :=
  min ⌊(i : ℚ) * posRatio raw subs⌋₊ ((filterLyricsFallback raw).length - 1)

/-- The proportional window of reference lines for cue i in the
condensing branch. -/
def posWindow (raw : List Char) (subs : List (List Char)) (i : Nat) : List (List Char) :=
  jsSlice (filterLyricsFallback raw) ⌊(i : ℚ) * posRatio raw subs⌋₊
    (min ⌊((i : ℚ) + 1) * posRatio raw subs⌋₊ (filterLyricsFallback raw).length)

theorem getD_map_range {α : Type} (f : Nat → α) {n i : Nat} (h : i < n) (d : α) :
    (((List.range n).map f).getD i d) = f i := by
  rw [List.getD_eq_getElem?_getD, List.getElem?_map, List.getElem?_range h]
  rfl

theorem length_posWindow (raw : List Char) (subs : List (List Char)) (i : Nat) :
    (posWindow raw subs i).length =
      min ⌊((i : ℚ) + 1) * posRatio raw subs⌋₊ (filterLyricsFallback raw).length -
        ⌊(i : ℚ) * posRatio raw subs⌋₊ := by
  unfold posWindow jsSlice
  rw [List.length_drop, List.length_take]
  omega

theorem posSpreadIdx_lt (raw : List Char) (subs : List (List Char)) (i : Nat)
    (hne : filterLyricsFallback raw ≠ []) :
    posSpreadIdx raw subs i < (filterLyricsFallback raw).length := by
  have hL : 0 < (filterLyricsFallback raw).length := List.length_pos.2 hne
  unfold posSpreadIdx
  omega

theorem posWindow_ne_nil (raw : List Char) (subs : List (List Char)) (i : Nat)
    (hi : i < subs.length) (h1 : 1 ≤ posRatio raw subs) :
    posWindow raw subs i ≠ [] := by
  have hn0 : 0 < subs.length := Nat.lt_of_le_of_lt (Nat.zero_le i) hi
  have hnq : (0 : ℚ) < (subs.length : ℚ) := by exact_mod_cast hn0
  have hr0 : (0 : ℚ) ≤ posRatio raw subs := le_trans zero_le_one h1
  have hmass : (subs.length : ℚ) * posRatio raw subs =
      ((filterLyricsFallback raw).length : ℚ) := by
    unfold posRatio
    field_simp
  have hix : (i : ℚ) * posRatio raw subs < ((filterLyricsFallback raw).length : ℚ) := by
    calc (i : ℚ) * posRatio raw subs
        < (subs.length : ℚ) * posRatio raw subs := by
          apply mul_lt_mul_of_pos_right _ (lt_of_lt_of_le zero_lt_one h1)
          exact_mod_cast hi
      _ = _ := hmass
  have hsL : ⌊(i : ℚ) * posRatio raw subs⌋₊ < (filterLyricsFallback raw).length := by
    rw [Nat.floor_lt (by positivity)]
    exact_mod_cast hix
  have hse : ⌊(i : ℚ) * posRatio raw subs⌋₊ < ⌊((i : ℚ) + 1) * posRatio raw subs⌋₊ := by
    have h1' : (i : ℚ) * posRatio raw subs + 1 ≤ ((i : ℚ) + 1) * posRatio raw subs := by
      nlinarith [hr0, h1]
    calc ⌊(i : ℚ) * posRatio raw subs⌋₊
        < ⌊(i : ℚ) * posRatio raw subs⌋₊ + 1 := Nat.lt_succ_self _
      _ = ⌊(i : ℚ) * posRatio raw subs + 1⌋₊ := (Nat.floor_add_one (by positivity)).symm
      _ ≤ ⌊((i : ℚ) + 1) * posRatio raw subs⌋₊ := Nat.floor_le_floor h1'
  intro hnil
  have hlen := length_posWindow raw subs i
  rw [hnil] at hlen
  simp only [List.length_nil] at hlen
  omega

/-- C6: with a non-empty filtered reference list the position aligner
always returns ok with fixed confidence 0.70; outside the ratio band
[1, 3/2] each cue receives the single reference line at the clamped
proportional index (always in range), and inside the band each cue
receives the non-empty proportional window of reference lines, joined
with a comma separator when it has more than one line. -/
theorem alignByPosition_spec (raw : List Char) (subs : List (List Char))
    (hne : filterLyricsFallback raw ≠ []) :
    (alignByPosition raw subs).ok = true ∧
    (alignByPosition raw subs).confidence = some (7/10) ∧
    (alignByPosition raw subs).method = some "position-fallback" ∧
    ∃ a, (alignByPosition raw subs).aligned = some a ∧
      a.length = subs.length ∧
      ∀ i, i < subs.length →
        ((posRatio raw subs < 1 ∨ 3/2 < posRatio raw subs) →
          posSpreadIdx raw subs i < (filterLyricsFallback raw).length ∧
          a.getD i [] = (filterLyricsFallback raw).getD (posSpreadIdx raw subs i) []) ∧
        (1 ≤ posRatio raw subs → posRatio raw subs ≤ 3/2 →
          posWindow raw subs i ≠ [] ∧
          a.getD i [] = (if 1 < (posWindow raw subs i).length
            then List.intercalate ", ".data (posWindow raw subs i)
            else (posWindow raw subs i).getD 0 [])) := by
  have hemp : (filterLyricsFallback raw).isEmpty = false := by
    cases h : filterLyricsFallback raw with
    | nil => exact absurd h hne
    | cons x xs => rfl
  have hrw : ((filterLyricsFallback raw).length : ℚ) / (subs.length : ℚ) =
      posRatio raw subs := rfl
  unfold alignByPosition
  simp only [hemp, Bool.false_eq_true, if_false, hrw]
  refine ⟨trivial, trivial, trivial, ?_⟩
  refine ⟨_, rfl, ?_, ?_⟩
  · split
    · simp
    · split
      · simp
      · simp
  · intro i hi
    constructor
    · intro hcase
      refine ⟨posSpreadIdx_lt raw subs i hne, ?_⟩
      rcases hcase with hlt | hgt
      · rw [if_pos hlt]
        rw [getD_map_range _ hi]
        rfl
      · rw [if_neg (by linarith : ¬ posRatio raw subs < 1)]
        rw [if_neg (by intro hc; linarith [hc.2] :
          ¬ (1 ≤ posRatio raw subs ∧ posRatio raw subs ≤ 3/2))]
        rw [getD_map_range _ hi]
        rfl
    · intro h1 h2
      refine ⟨posWindow_ne_nil raw subs i hi h1, ?_⟩
      rw [if_neg (by linarith : ¬ posRatio raw subs < 1)]
      rw [if_pos ⟨h1, h2⟩]
      rw [getD_map_range _ hi]
      have hpw : jsSlice (filterLyricsFallback raw) ⌊(i : ℚ) * posRatio raw subs⌋₊
          (min ⌊((i : ℚ) + 1) * posRatio raw subs⌋₊ (filterLyricsFallback raw).length) =
          posWindow raw subs i := rfl
      rw [hpw]
      have hwlen : 0 < (posWindow raw subs i).length :=
        List.length_pos.2 (posWindow_ne_nil raw subs i hi h1)
      by_cases hgt1 : 1 < (posWindow raw subs i).length
      · rw [if_pos hgt1, if_pos hgt1]
      · have hone : (posWindow raw subs i).length = 1 := by omega
        rw [if_neg hgt1, if_neg hgt1, if_pos hone]

theorem alignByPosition_spec_witness :
    filterLyricsFallback ("line one\nline two").data ≠ [] ∧
    ((alignByPosition ("line one\nline two").data [[], [], [], [], []]).ok = true ∧
     (alignByPosition ("line one\nline two").data [[], [], [], [], []]).confidence =
        some (7/10) ∧
     (alignByPosition ("line one\nline two").data [[], [], [], [], []]).method =
        some "position-fallback" ∧
     ∃ a, (alignByPosition ("line one\nline two").data [[], [], [], [], []]).aligned =
          some a ∧
       a.length = ([[], [], [], [], []] : List (List Char)).length ∧
       ∀ i, i < ([[], [], [], [], []] : List (List Char)).length →
         ((posRatio ("line one\nline two").data [[], [], [], [], []] < 1 ∨
             3/2 < posRatio ("line one\nline two").data [[], [], [], [], []]) →
           posSpreadIdx ("line one\nline two").data [[], [], [], [], []] i <
             (filterLyricsFallback ("line one\nline two").data).length ∧
           a.getD i [] = (filterLyricsFallback ("line one\nline two").data).getD
             (posSpreadIdx ("line one\nline two").data [[], [], [], [], []] i) []) ∧
         (1 ≤ posRatio ("line one\nline two").data [[], [], [], [], []] →
             posRatio ("line one\nline two").data [[], [], [], [], []] ≤ 3/2 →
           posWindow ("line one\nline two").data [[], [], [], [], []] i ≠ [] ∧
           a.getD i [] =
             (if 1 < (posWindow ("line one\nline two").data [[], [], [], [], []] i).length
              then List.intercalate ", ".data
                (posWindow ("line one\nline two").data [[], [], [], [], []] i)
              else (posWindow ("line one\nline two").data [[], [], [], [], []] i).getD 0 []))) :=
  ⟨by decide, alignByPosition_spec _ _ (by decide)⟩

/-- Matrix entries of levenshteinDistance in renderer.js: levMat a b i j is
matrix entry [i][j], the edit distance between the first j characters of a
and the first i characters of b, filled by the recurrence of the source. -/
def levMat (a b : List Char) : Nat → Nat → Nat
  | i, 0 => i
  | 0, j + 1 => j + 1
  | i + 1, j + 1 =>
    if b.getD i ' ' = a.getD j ' ' then levMat a b i j
    else min (levMat a b i j + 1) (min (levMat a b (i + 1) j + 1) (levMat a b i (j + 1) + 1))
  termination_by i j => (i, j)

/-- Model of levenshteinDistance from renderer.js: the bottom-right matrix
entry. -/
def levenshteinDistance (a b : List Char) : Nat :=
  levMat a b b.length a.length

/-- A timed donor line as used by the renderer's aligner: start and end
times in seconds and the normalized comparison text. -/
structure DonorLine where
  start : ℚ
  end_ : ℚ
  normalized : List Char
  deriving Repr, DecidableEq

instance : Inhabited DonorLine := ⟨⟨0, 0, []⟩⟩

/-- Backtracking tags recorded in the DP table of alignSequencesSync. -/
inductive Act where
  | actMatch
  | actSkipDonor
  | actSkipTarget
  | actMergeDonor
  | actSplitTarget
  deriving Repr, DecidableEq

/-- Fold of the source's sequence of strict-improvement checks: the
candidate list is scanned in program order and a candidate replaces the
current best exactly when its value is strictly smaller, starting from
Infinity with no action, as the unfilled cell does. -/
def pickMin (cands : List (Act × WithTop Nat)) : WithTop Nat × Option Act :=
  cands.foldl (fun best c => if c.2 < best.1 then (c.2, some c.1) else best)
    ((⊤ : WithTop Nat), none)

/-- The DP cell of alignSequencesSync: value and backtracking tag of cell
(i, j), by the recurrence the nested loops of the source fill in.  The
candidates appear in the order the source tests them: match, skip donor,
skip target, merge donor, split target. -/
def dpB (d : List DonorLine) (t : List (List Char)) (i j : Nat) :
    WithTop Nat × Option Act :=
  if i = 0 ∧ j = 0 then ((0 : Nat), none)
  else
    pickMin (
      (if _h : 0 < i ∧ 0 < j then
        [(Act.actMatch, (dpB d t (i - 1) (j - 1)).1 +
          (levenshteinDistance (d.getD (i - 1) default).normalized (t.getD (j - 1) []) :
            Nat))]
       else []) ++
      (if _h : 0 < i then
        [(Act.actSkipDonor, (dpB d t (i - 1) j).1 + (2 : Nat))]
       else []) ++
      (if _h : 0 < j then
        [(Act.actSkipTarget, (dpB d t i (j - 1)).1 + (3 : Nat))]
       else []) ++
      (if _h : 1 < i ∧ 0 < j then
        [(Act.actMergeDonor, (dpB d t (i - 2) (j - 1)).1 +
          (levenshteinDistance
            ((d.getD (i - 2) default).normalized ++ ' ' :: (d.getD (i - 1) default).normalized)
            (t.getD (j - 1) []) : Nat))]
       else []) ++
      (if _h : 0 < i ∧ 1 < j then
        [(Act.actSplitTarget, (dpB d t (i - 1) (j - 2)).1 +
          (levenshteinDistance (d.getD (i - 1) default).normalized
            ((t.getD (j - 2) []) ++ ' ' :: (t.getD (j - 1) [])) : Nat))]
       else []))
  termination_by i + j
  decreasing_by all_goals omega

/-- Alignment entries as pushed by the backtracking loop: skip steps push
nothing, a merge records its two donor indices, a split its two target
indices. -/
inductive AlignEntry where
  | matchE (donor : Nat) (target : Nat)
  | mergeE (donor : List Nat) (target : Nat)
  | splitE (donor : Nat) (target : List Nat)
  deriving Repr, DecidableEq

/-- The backtracking walk of alignSequencesSync, from cell (i, j) down to
the origin, prepending entries as the source's unshift does.  The fuel
argument bounds the number of iterations; i + j suffices since every
recorded action moves at least one index down. -/
def btLoop (bt : Nat → Nat → Option Act) :
    Nat → Nat → Nat → List AlignEntry → List AlignEntry
  | 0, _, _, acc => acc
  | fuel + 1, i, j, acc =>
    if 0 < i ∨ 0 < j then
      match bt i j with
      | some Act.actMatch =>
          btLoop bt fuel (i - 1) (j - 1) (AlignEntry.matchE (i - 1) (j - 1) :: acc)
      | some Act.actMergeDonor =>
          btLoop bt fuel (i - 2) (j - 1) (AlignEntry.mergeE [i - 2, i - 1] (j - 1) :: acc)
      | some Act.actSplitTarget =>
          btLoop bt fuel (i - 1) (j - 2) (AlignEntry.splitE (i - 1) [j - 2, j - 1] :: acc)
      | some Act.actSkipDonor => btLoop bt fuel (i - 1) j acc
      | some Act.actSkipTarget => btLoop bt fuel i (j - 1) acc
      | none => acc
    else acc

/-- Model of alignSequencesSync from renderer.js: fill the DP table, then
backtrack from (n, m). -/
def alignSequencesSync (donorLines : List DonorLine) (targetLines : List (List Char)) :
    List AlignEntry :=
  btLoop (fun i j => (dpB donorLines targetLines i j).2)
    (donorLines.length + targetLines.length) donorLines.length targetLines.length []

/-- Model of alignSequences from renderer.js: the async variant, whose body
differs from alignSequencesSync only by log statements. -/
def alignSequences (donorLines : List DonorLine) (targetLines : List (List Char)) :
    List AlignEntry :=
  btLoop (fun i j => (dpB donorLines targetLines i j).2)
    (donorLines.length + targetLines.length) donorLines.length targetLines.length []

theorem pickMin_fold_le (cands : List (Act × WithTop Nat)) :
    ∀ init : WithTop Nat × Option Act,
    (cands.foldl (fun best c => if c.2 < best.1 then (c.2, some c.1) else best) init).1 ≤
      init.1 := by
  induction cands with
  | nil => intro init; exact le_refl _
  | cons c rest ih =>
    intro init
    simp only [List.foldl_cons]
    by_cases hc : c.2 < init.1
    · rw [if_pos hc]
      exact le_trans (ih _) (le_of_lt hc)
    · rw [if_neg hc]
      exact ih init

theorem pickMin_fold_le_of_mem {c : Act × WithTop Nat} :
    ∀ {cands : List (Act × WithTop Nat)}, c ∈ cands →
    ∀ init : WithTop Nat × Option Act,
    (cands.foldl (fun best c => if c.2 < best.1 then (c.2, some c.1) else best) init).1 ≤
      c.2 := by
  intro cands
  induction cands with
  | nil => intro h; simp at h
  | cons d rest ih =>
    intro hmem init
    simp only [List.foldl_cons]
    rcases List.mem_cons.1 hmem with h | h
    · subst h
      by_cases hc : c.2 < init.1
      · rw [if_pos hc]
        exact pickMin_fold_le rest _
      · rw [if_neg hc]
        exact le_trans (pickMin_fold_le rest init) (not_lt.1 hc)
    · by_cases hc : d.2 < init.1
      · rw [if_pos hc]
        exact ih h _
      · rw [if_neg hc]
        exact ih h init

theorem pickMin_fold_result (cands : List (Act × WithTop Nat)) :
    ∀ init : WithTop Nat × Option Act,
    (cands.foldl (fun best c => if c.2 < best.1 then (c.2, some c.1) else best) init) = init ∨
    ∃ c ∈ cands,
      (cands.foldl (fun best c => if c.2 < best.1 then (c.2, some c.1) else best) init).1 =
        c.2 ∧
      (cands.foldl (fun best c => if c.2 < best.1 then (c.2, some c.1) else best) init).2 =
        some c.1 := by
  induction cands with
  | nil => intro init; exact Or.inl rfl
  | cons c rest ih =>
    intro init
    simp only [List.foldl_cons]
    by_cases hc : c.2 < init.1
    · rw [if_pos hc]
      rcases ih (c.2, some c.1) with h | h
      · refine Or.inr ⟨c, List.mem_cons_self _ _, ?_, ?_⟩
        · rw [h]
        · rw [h]
      · obtain ⟨e, he, h1, h2⟩ := h
        exact Or.inr ⟨e, List.mem_cons_of_mem _ he, h1, h2⟩
    · rw [if_neg hc]
      rcases ih init with h | h
      · exact Or.inl h
      · obtain ⟨e, he, h1, h2⟩ := h
        exact Or.inr ⟨e, List.mem_cons_of_mem _ he, h1, h2⟩

theorem pickMin_le_of_mem {cands : List (Act × WithTop Nat)} {c : Act × WithTop Nat}
    (hc : c ∈ cands) : (pickMin cands).1 ≤ c.2 :=
  pickMin_fold_le_of_mem hc _

theorem pickMin_some {cands : List (Act × WithTop Nat)} {a : Act}
    (h : (pickMin cands).2 = some a) :
    ∃ c ∈ cands, c.1 = a ∧ (pickMin cands).1 = c.2 := by
  rcases pickMin_fold_result cands ((⊤ : WithTop Nat), none) with h' | h'
  · unfold pickMin at h
    rw [h'] at h
    simp at h
  · obtain ⟨e, he, h1, h2⟩ := h'
    unfold pickMin at h
    rw [h2] at h
    refine ⟨e, he, ?_, ?_⟩
    · exact Option.some.inj h
    · exact h1

theorem pickMin_none {cands : List (Act × WithTop Nat)}
    (h : (pickMin cands).2 = none) : (pickMin cands).1 = ⊤ := by
  rcases pickMin_fold_result cands ((⊤ : WithTop Nat), none) with h' | h'
  · unfold pickMin
    rw [h']
  · obtain ⟨e, he, h1, h2⟩ := h'
    unfold pickMin at h
    rw [h2] at h
    simp at h

/-- Cost of the match transition into cell (i, j). -/
def mCost (d : List DonorLine) (t : List (List Char)) (i j : Nat) : Nat :=
  levenshteinDistance (d.getD (i - 1) default).normalized (t.getD (j - 1) [])

/-- Cost of the merge-donor transition into cell (i, j). -/
def mgCost (d : List DonorLine) (t : List (List Char)) (i j : Nat) : Nat :=
  levenshteinDistance
    ((d.getD (i - 2) default).normalized ++ ' ' :: (d.getD (i - 1) default).normalized)
    (t.getD (j - 1) [])

/-- Cost of the split-target transition into cell (i, j). -/
def spCost (d : List DonorLine) (t : List (List Char)) (i j : Nat) : Nat :=
  levenshteinDistance (d.getD (i - 1) default).normalized
    ((t.getD (j - 2) []) ++ ' ' :: (t.getD (j - 1) []))

/-- The candidate list of cell (i, j), in source program order. -/
def dpCands (d : List DonorLine) (t : List (List Char)) (i j : Nat) :
    List (Act × WithTop Nat) :=
  (if _h : 0 < i ∧ 0 < j then
    [(Act.actMatch, (dpB d t (i - 1) (j - 1)).1 + (mCost d t i j : Nat))]
   else []) ++
  (if _h : 0 < i then
    [(Act.actSkipDonor, (dpB d t (i - 1) j).1 + (2 : Nat))]
   else []) ++
  (if _h : 0 < j then
    [(Act.actSkipTarget, (dpB d t i (j - 1)).1 + (3 : Nat))]
   else []) ++
  (if _h : 1 < i ∧ 0 < j then
    [(Act.actMergeDonor, (dpB d t (i - 2) (j - 1)).1 + (mgCost d t i j : Nat))]
   else []) ++
  (if _h : 0 < i ∧ 1 < j then
    [(Act.actSplitTarget, (dpB d t (i - 1) (j - 2)).1 + (spCost d t i j : Nat))]
   else [])

theorem dpB_zero (d : List DonorLine) (t : List (List Char)) :
    dpB d t 0 0 = (((0 : Nat) : WithTop Nat), none) := by
  unfold dpB
  simp

theorem dpB_eq (d : List DonorLine) (t : List (List Char)) {i j : Nat}
    (h : ¬(i = 0 ∧ j = 0)) :
    dpB d t i j = pickMin (dpCands d t i j) := by
  conv_lhs => rw [dpB]
  rw [if_neg h]
  rfl

theorem mem_dpCands_match (d : List DonorLine) (t : List (List Char)) {i j : Nat}
    (hi : 0 < i) (hj : 0 < j) :
    (Act.actMatch, (dpB d t (i - 1) (j - 1)).1 + (mCost d t i j : Nat)) ∈ dpCands d t i j := by
  unfold dpCands
  rw [dif_pos ⟨hi, hj⟩]
  simp

theorem mem_dpCands_skipDonor (d : List DonorLine) (t : List (List Char)) {i j : Nat}
    (hi : 0 < i) :
    (Act.actSkipDonor, (dpB d t (i - 1) j).1 + (2 : Nat)) ∈ dpCands d t i j := by
  unfold dpCands
  rw [dif_pos hi]
  simp

theorem mem_dpCands_skipTarget (d : List DonorLine) (t : List (List Char)) {i j : Nat}
    (hj : 0 < j) :
    (Act.actSkipTarget, (dpB d t i (j - 1)).1 + (3 : Nat)) ∈ dpCands d t i j := by
  unfold dpCands
  rw [dif_pos hj]
  simp

theorem mem_dpCands_merge (d : List DonorLine) (t : List (List Char)) {i j : Nat}
    (hi : 1 < i) (hj : 0 < j) :
    (Act.actMergeDonor, (dpB d t (i - 2) (j - 1)).1 + (mgCost d t i j : Nat)) ∈
      dpCands d t i j := by
  unfold dpCands
  rw [dif_pos (show 1 < i ∧ 0 < j from ⟨hi, hj⟩)]
  simp

theorem mem_dpCands_split (d : List DonorLine) (t : List (List Char)) {i j : Nat}
    (hi : 0 < i) (hj : 1 < j) :
    (Act.actSplitTarget, (dpB d t (i - 1) (j - 2)).1 + (spCost d t i j : Nat)) ∈
      dpCands d t i j := by
  unfold dpCands
  rw [dif_pos (show 0 < i ∧ 1 < j from ⟨hi, hj⟩)]
  simp

theorem dpCands_cases (d : List DonorLine) (t : List (List Char)) {i j : Nat}
    {c : Act × WithTop Nat} (hc : c ∈ dpCands d t i j) :
    (0 < i ∧ 0 < j ∧ c = (Act.actMatch, (dpB d t (i - 1) (j - 1)).1 + (mCost d t i j : Nat))) ∨
    (0 < i ∧ c = (Act.actSkipDonor, (dpB d t (i - 1) j).1 + (2 : Nat))) ∨
    (0 < j ∧ c = (Act.actSkipTarget, (dpB d t i (j - 1)).1 + (3 : Nat))) ∨
    (1 < i ∧ 0 < j ∧
      c = (Act.actMergeDonor, (dpB d t (i - 2) (j - 1)).1 + (mgCost d t i j : Nat))) ∨
    (0 < i ∧ 1 < j ∧
      c = (Act.actSplitTarget, (dpB d t (i - 1) (j - 2)).1 + (spCost d t i j : Nat))) := by
  unfold dpCands at hc
  simp only [List.mem_append] at hc
  rcases hc with ((((h | h) | h) | h) | h)
  · split at h
    · rename_i hg
      simp at h
      exact Or.inl ⟨hg.1, hg.2, h⟩
    · simp at h
  · split at h
    · rename_i hg
      simp at h
      exact Or.inr (Or.inl ⟨hg, h⟩)
    · simp at h
  · split at h
    · rename_i hg
      simp at h
      exact Or.inr (Or.inr (Or.inl ⟨hg, h⟩))
    · simp at h
  · split at h
    · rename_i hg
      simp at h
      exact Or.inr (Or.inr (Or.inr (Or.inl ⟨hg.1, hg.2, h⟩)))
    · simp at h
  · split at h
    · rename_i hg
      simp at h
      exact Or.inr (Or.inr (Or.inr (Or.inr ⟨hg.1, hg.2, h⟩)))
    · simp at h

theorem dpB_fst_ne_top (d : List DonorLine) (t : List (List Char)) :
    ∀ n i j, i + j ≤ n → (dpB d t i j).1 ≠ ⊤ := by
  intro n
  induction n with
  | zero =>
    intro i j hij
    have hi : i = 0 := by omega
    have hj : j = 0 := by omega
    subst hi; subst hj
    rw [dpB_zero]
    simp
  | succ n ih =>
    intro i j hij
    by_cases h00 : i = 0 ∧ j = 0
    · obtain ⟨hi, hj⟩ := h00
      subst hi; subst hj
      rw [dpB_zero]
      simp
    · rw [dpB_eq d t h00]
      by_cases hi : 0 < i
      · have hmem := mem_dpCands_skipDonor d t (i := i) (j := j) hi
        have hle := pickMin_le_of_mem hmem
        have hprev : (dpB d t (i - 1) j).1 ≠ ⊤ := ih (i - 1) j (by omega)
        intro htop
        rw [htop] at hle
        have : (dpB d t (i - 1) j).1 + ((2 : Nat) : WithTop Nat) = ⊤ :=
          top_le_iff.1 hle
        rw [WithTop.add_eq_top] at this
        rcases this with h' | h'
        · exact hprev h'
        · exact absurd h' (by simp)
      · have hj : 0 < j := by omega
        have hmem := mem_dpCands_skipTarget d t (i := i) (j := j) hj
        have hle := pickMin_le_of_mem hmem
        have hprev : (dpB d t i (j - 1)).1 ≠ ⊤ := ih i (j - 1) (by omega)
        intro htop
        rw [htop] at hle
        have : (dpB d t i (j - 1)).1 + ((3 : Nat) : WithTop Nat) = ⊤ :=
          top_le_iff.1 hle
        rw [WithTop.add_eq_top] at this
        rcases this with h' | h'
        · exact hprev h'
        · exact absurd h' (by simp)

theorem dpB_snd_some (d : List DonorLine) (t : List (List Char)) {i j : Nat}
    (h : ¬(i = 0 ∧ j = 0)) : ∃ a, (dpB d t i j).2 = some a := by
  cases ha : (dpB d t i j).2 with
  | some a => exact ⟨a, rfl⟩
  | none =>
    exfalso
    rw [dpB_eq d t h] at ha
    have := pickMin_none ha
    have hne := dpB_fst_ne_top d t (i + j) i j (le_refl _)
    rw [dpB_eq d t h] at hne
    exact hne this

/-- Full alignment operations, including the skip steps that the
backtracking loop walks through without emitting an entry.  A valid
alignment is a sequence of these consuming donor and target indices in
order. -/
inductive FullOp where
  | fmatch (di tj : Nat)
  | fskipDonor (di : Nat)
  | fskipTarget (tj : Nat)
  | fmerge (d1 d2 tj : Nat)
  | fsplit (di t1 t2 : Nat)
  deriving Repr, DecidableEq

/-- Per-operation cost, as in the DP recurrence and in the claim: match,
merge and split pay the Levenshtein distance of the compared texts, a
skipped donor line costs 2, a skipped target line costs 3. -/
def opCost (d : List DonorLine) (t : List (List Char)) : FullOp → Nat
  | .fmatch di tj => levenshteinDistance (d.getD di default).normalized (t.getD tj [])
  | .fskipDonor _ => 2
  | .fskipTarget _ => 3
  | .fmerge d1 d2 tj =>
      levenshteinDistance
        ((d.getD d1 default).normalized ++ ' ' :: (d.getD d2 default).normalized)
        (t.getD tj [])
  | .fsplit di t1 t2 =>
      levenshteinDistance (d.getD di default).normalized
        ((t.getD t1 []) ++ ' ' :: (t.getD t2 []))

/-- Total cost of an op sequence. -/
def seqCost (d : List DonorLine) (t : List (List Char)) (s : List FullOp) : Nat :=
  (s.map (opCost d t)).sum

/-- Valid op sequences: Reach i j s holds when s consumes exactly the
donor indices below i and the target indices below j, in increasing
order, by the five permitted operations. -/
inductive Reach : Nat → Nat → List FullOp → Prop
  | nil : Reach 0 0 []
  | rmatch {i j : Nat} {s : List FullOp} :
      Reach i j s → Reach (i + 1) (j + 1) (s ++ [FullOp.fmatch i j])
  | rskipD {i j : Nat} {s : List FullOp} :
      Reach i j s → Reach (i + 1) j (s ++ [FullOp.fskipDonor i])
  | rskipT {i j : Nat} {s : List FullOp} :
      Reach i j s → Reach i (j + 1) (s ++ [FullOp.fskipTarget j])
  | rmerge {i j : Nat} {s : List FullOp} :
      Reach i j s → Reach (i + 2) (j + 1) (s ++ [FullOp.fmerge i (i + 1) j])
  | rsplit {i j : Nat} {s : List FullOp} :
      Reach i j s → Reach (i + 1) (j + 2) (s ++ [FullOp.fsplit i j (j + 1)])

/-- The entries the backtracking loop emits for a full op sequence: skip
steps emit nothing. -/
def stripSkips : List FullOp → List AlignEntry
  | [] => []
  | FullOp.fmatch di tj :: rest => AlignEntry.matchE di tj :: stripSkips rest
  | FullOp.fmerge d1 d2 tj :: rest => AlignEntry.mergeE [d1, d2] tj :: stripSkips rest
  | FullOp.fsplit di t1 t2 :: rest => AlignEntry.splitE di [t1, t2] :: stripSkips rest
  | FullOp.fskipDonor _ :: rest => stripSkips rest
  | FullOp.fskipTarget _ :: rest => stripSkips rest

theorem stripSkips_append (s1 s2 : List FullOp) :
    stripSkips (s1 ++ s2) = stripSkips s1 ++ stripSkips s2 := by
  induction s1 with
  | nil => rfl
  | cons op rest ih =>
    cases op <;> simp [stripSkips, ih]

theorem seqCost_append (d : List DonorLine) (t : List (List Char)) (s1 s2 : List FullOp) :
    seqCost d t (s1 ++ s2) = seqCost d t s1 + seqCost d t s2 := by
  unfold seqCost
  rw [List.map_append, List.sum_append]

/-- Every valid op sequence into cell (i, j) costs at least the DP value
of that cell. -/
theorem dpB_le_seqCost (d : List DonorLine) (t : List (List Char)) :
    ∀ {i j : Nat} {s : List FullOp}, Reach i j s →
      (dpB d t i j).1 ≤ (seqCost d t s : WithTop Nat) := by
  intro i j s h
  induction h with
  | nil =>
    rw [dpB_zero]
    simp [seqCost]
  | rmatch h ih =>
    rename_i i j s
    have hmem := mem_dpCands_match d t (i := i + 1) (j := j + 1)
      (Nat.succ_pos i) (Nat.succ_pos j)
    have hle := pickMin_le_of_mem hmem
    rw [← dpB_eq d t (by omega)] at hle
    refine le_trans hle ?_
    rw [seqCost_append]
    have hc : seqCost d t [FullOp.fmatch i j] = mCost d t (i + 1) (j + 1) := by
      simp [mCost, seqCost, opCost]
    rw [hc]
    push_cast
    exact add_le_add_right ih _
  | rskipD h ih =>
    rename_i i j s
    have hmem := mem_dpCands_skipDonor d t (i := i + 1) (j := j) (Nat.succ_pos i)
    have hle := pickMin_le_of_mem hmem
    rw [← dpB_eq d t (by omega)] at hle
    refine le_trans hle ?_
    rw [seqCost_append]
    have hc : seqCost d t [FullOp.fskipDonor i] = 2 := by
      simp [seqCost, opCost]
    rw [hc]
    push_cast
    exact add_le_add_right ih _
  | rskipT h ih =>
    rename_i i j s
    have hmem := mem_dpCands_skipTarget d t (i := i) (j := j + 1) (Nat.succ_pos j)
    have hle := pickMin_le_of_mem hmem
    rw [← dpB_eq d t (by omega)] at hle
    refine le_trans hle ?_
    rw [seqCost_append]
    have hc : seqCost d t [FullOp.fskipTarget j] = 3 := by
      simp [seqCost, opCost]
    rw [hc]
    push_cast
    exact add_le_add_right ih _
  | rmerge h ih =>
    rename_i i j s
    have hmem := mem_dpCands_merge d t (i := i + 2) (j := j + 1) (by omega)
      (Nat.succ_pos j)
    have hle := pickMin_le_of_mem hmem
    rw [← dpB_eq d t (by omega)] at hle
    refine le_trans hle ?_
    rw [seqCost_append]
    have hc : seqCost d t [FullOp.fmerge i (i + 1) j] = mgCost d t (i + 2) (j + 1) := by
      simp [mgCost, seqCost, opCost]
    rw [hc]
    push_cast
    exact add_le_add_right ih _
  | rsplit h ih =>
    rename_i i j s
    have hmem := mem_dpCands_split d t (i := i + 1) (j := j + 2) (Nat.succ_pos i)
      (by omega)
    have hle := pickMin_le_of_mem hmem
    rw [← dpB_eq d t (by omega)] at hle
    refine le_trans hle ?_
    rw [seqCost_append]
    have hc : seqCost d t [FullOp.fsplit i j (j + 1)] = spCost d t (i + 1) (j + 2) := by
      simp [spCost, seqCost, opCost]
    rw [hc]
    push_cast
    exact add_le_add_right ih _

/-- Master backtracking lemma: every cell (i, j) is realized by a valid op
sequence whose cost is exactly the DP value, and the backtracking loop
started at (i, j) with enough fuel emits exactly its non-skip entries. -/
theorem dpB_backtrack (d : List DonorLine) (t : List (List Char)) :
    ∀ n i j, i + j ≤ n →
    ∃ s : List FullOp, Reach i j s ∧
      (seqCost d t s : WithTop Nat) = (dpB d t i j).1 ∧
      ∀ fuel acc, i + j ≤ fuel →
        btLoop (fun a b => (dpB d t a b).2) fuel i j acc = stripSkips s ++ acc := by
  intro n
  induction n with
  | zero =>
    intro i j hij
    have hi : i = 0 := by omega
    have hj : j = 0 := by omega
    subst hi; subst hj
    refine ⟨[], Reach.nil, by simp [seqCost, dpB_zero], ?_⟩
    intro fuel acc _
    cases fuel with
    | zero => rfl
    | succ f => simp [btLoop, stripSkips]
  | succ n ih =>
    intro i j hij
    by_cases h00 : i = 0 ∧ j = 0
    · obtain ⟨hi, hj⟩ := h00
      subst hi; subst hj
      refine ⟨[], Reach.nil, by simp [seqCost, dpB_zero], ?_⟩
      intro fuel acc _
      cases fuel with
      | zero => rfl
      | succ f => simp [btLoop, stripSkips]
    · obtain ⟨a, ha⟩ := dpB_snd_some d t h00
      have hval : (dpB d t i j).1 = (pickMin (dpCands d t i j)).1 := by
        rw [dpB_eq d t h00]
      have ha' : (pickMin (dpCands d t i j)).2 = some a := by
        rw [← dpB_eq d t h00]
        exact ha
      obtain ⟨c, hcmem, hc1, hc2⟩ := pickMin_some ha'
      rcases dpCands_cases d t hcmem with
        ⟨hi, hj, hceq⟩ | ⟨hi, hceq⟩ | ⟨hj, hceq⟩ | ⟨hi, hj, hceq⟩ | ⟨hi, hj, hceq⟩
      · -- match
        obtain ⟨s', hR', hcost', hbt'⟩ := ih (i - 1) (j - 1) (by omega)
        have haeq : a = Act.actMatch := by rw [hceq] at hc1; exact hc1.symm
        refine ⟨s' ++ [FullOp.fmatch (i - 1) (j - 1)], ?_, ?_, ?_⟩
        · have hR := Reach.rmatch hR'
          rwa [Nat.sub_add_cancel hi, Nat.sub_add_cancel hj] at hR
        · rw [seqCost_append]
          have hop : seqCost d t [FullOp.fmatch (i - 1) (j - 1)] = mCost d t i j := by
            simp [seqCost, opCost, mCost]
          have hcellv : (dpB d t i j).1 = (dpB d t (i - 1) (j - 1)).1 + (mCost d t i j : Nat) := by
            rw [hval, hc2, hceq]
          rw [hop, hcellv]
          push_cast
          rw [hcost']
        · intro fuel acc hfuel
          cases fuel with
          | zero => omega
          | succ f =>
            have hsome : (dpB d t i j).2 = some Act.actMatch := by rw [ha, haeq]
            simp only [btLoop]
            rw [if_pos (Or.inl hi), hsome]
            rw [hbt' f (AlignEntry.matchE (i - 1) (j - 1) :: acc) (by omega)]
            rw [stripSkips_append]
            simp [stripSkips]
      · -- skip donor
        obtain ⟨s', hR', hcost', hbt'⟩ := ih (i - 1) j (by omega)
        have haeq : a = Act.actSkipDonor := by rw [hceq] at hc1; exact hc1.symm
        refine ⟨s' ++ [FullOp.fskipDonor (i - 1)], ?_, ?_, ?_⟩
        · have hR := Reach.rskipD hR'
          rwa [Nat.sub_add_cancel hi] at hR
        · rw [seqCost_append]
          have hop : seqCost d t [FullOp.fskipDonor (i - 1)] = 2 := by
            simp [seqCost, opCost]
          have hcellv : (dpB d t i j).1 = (dpB d t (i - 1) j).1 + ((2 : Nat) : WithTop Nat) := by
            rw [hval, hc2, hceq]
          rw [hop, hcellv]
          push_cast
          rw [hcost']
        · intro fuel acc hfuel
          cases fuel with
          | zero => omega
          | succ f =>
            have hsome : (dpB d t i j).2 = some Act.actSkipDonor := by rw [ha, haeq]
            simp only [btLoop]
            rw [if_pos (Or.inl hi), hsome]
            rw [hbt' f acc (by omega)]
            rw [stripSkips_append]
            simp [stripSkips]
      · -- skip target
        obtain ⟨s', hR', hcost', hbt'⟩ := ih i (j - 1) (by omega)
        have haeq : a = Act.actSkipTarget := by rw [hceq] at hc1; exact hc1.symm
        refine ⟨s' ++ [FullOp.fskipTarget (j - 1)], ?_, ?_, ?_⟩
        · have hR := Reach.rskipT hR'
          rwa [Nat.sub_add_cancel hj] at hR
        · rw [seqCost_append]
          have hop : seqCost d t [FullOp.fskipTarget (j - 1)] = 3 := by
            simp [seqCost, opCost]
          have hcellv : (dpB d t i j).1 = (dpB d t i (j - 1)).1 + ((3 : Nat) : WithTop Nat) := by
            rw [hval, hc2, hceq]
          rw [hop, hcellv]
          push_cast
          rw [hcost']
        · intro fuel acc hfuel
          cases fuel with
          | zero => omega
          | succ f =>
            have hsome : (dpB d t i j).2 = some Act.actSkipTarget := by rw [ha, haeq]
            simp only [btLoop]
            rw [if_pos (Or.inr hj), hsome]
            rw [hbt' f acc (by omega)]
            rw [stripSkips_append]
            simp [stripSkips]
      · -- merge donor
        obtain ⟨s', hR', hcost', hbt'⟩ := ih (i - 2) (j - 1) (by omega)
        have haeq : a = Act.actMergeDonor := by rw [hceq] at hc1; exact hc1.symm
        refine ⟨s' ++ [FullOp.fmerge (i - 2) (i - 1) (j - 1)], ?_, ?_, ?_⟩
        · have hR := Reach.rmerge hR'
          rw [show i - 2 + 2 = i from by omega, Nat.sub_add_cancel hj,
            show i - 2 + 1 = i - 1 from by omega] at hR
          exact hR
        · rw [seqCost_append]
          have hop : seqCost d t [FullOp.fmerge (i - 2) (i - 1) (j - 1)] = mgCost d t i j := by
            simp [seqCost, opCost, mgCost]
          have hcellv : (dpB d t i j).1 = (dpB d t (i - 2) (j - 1)).1 + (mgCost d t i j : Nat) := by
            rw [hval, hc2, hceq]
          rw [hop, hcellv]
          push_cast
          rw [hcost']
        · intro fuel acc hfuel
          cases fuel with
          | zero => omega
          | succ f =>
            have hsome : (dpB d t i j).2 = some Act.actMergeDonor := by rw [ha, haeq]
            simp only [btLoop]
            rw [if_pos (Or.inl (by omega : 0 < i)), hsome]
            rw [hbt' f (AlignEntry.mergeE [i - 2, i - 1] (j - 1) :: acc) (by omega)]
            rw [stripSkips_append]
            simp [stripSkips]
      · -- split target
        obtain ⟨s', hR', hcost', hbt'⟩ := ih (i - 1) (j - 2) (by omega)
        have haeq : a = Act.actSplitTarget := by rw [hceq] at hc1; exact hc1.symm
        refine ⟨s' ++ [FullOp.fsplit (i - 1) (j - 2) (j - 1)], ?_, ?_, ?_⟩
        · have hR := Reach.rsplit hR'
          rw [Nat.sub_add_cancel hi, show j - 2 + 2 = j from by omega,
            show j - 2 + 1 = j - 1 from by omega] at hR
          exact hR
        · rw [seqCost_append]
          have hop : seqCost d t [FullOp.fsplit (i - 1) (j - 2) (j - 1)] = spCost d t i j := by
            simp [seqCost, opCost, spCost]
          have hcellv : (dpB d t i j).1 = (dpB d t (i - 1) (j - 2)).1 + (spCost d t i j : Nat) := by
            rw [hval, hc2, hceq]
          rw [hop, hcellv]
          push_cast
          rw [hcost']
        · intro fuel acc hfuel
          cases fuel with
          | zero => omega
          | succ f =>
            have hsome : (dpB d t i j).2 = some Act.actSplitTarget := by rw [ha, haeq]
            simp only [btLoop]
            rw [if_pos (Or.inl hi), hsome]
            rw [hbt' f (AlignEntry.splitE (i - 1) [j - 2, j - 1] :: acc) (by omega)]
            rw [stripSkips_append]
            simp [stripSkips]

/-- Donor indices consumed by a full operation. -/
def fullDonors : FullOp → List Nat
  | .fmatch di _ => [di]
  | .fskipDonor di => [di]
  | .fskipTarget _ => []
  | .fmerge d1 d2 _ => [d1, d2]
  | .fsplit di _ _ => [di]

/-- Target indices consumed by a full operation. -/
def fullTargets : FullOp → List Nat
  | .fmatch _ tj => [tj]
  | .fskipDonor _ => []
  | .fskipTarget tj => [tj]
  | .fmerge _ _ tj => [tj]
  | .fsplit _ t1 t2 => [t1, t2]

/-- Donor indices of an emitted alignment entry. -/
def entryDonors : AlignEntry → List Nat
  | .matchE di _ => [di]
  | .mergeE ds _ => ds
  | .splitE di _ => [di]

/-- Target indices of an emitted alignment entry. -/
def entryTargets : AlignEntry → List Nat
  | .matchE _ tj => [tj]
  | .mergeE _ tj => [tj]
  | .splitE _ ts => ts

/-- A valid op sequence consumes exactly the donor indices below i and the
target indices below j, each exactly once, in increasing order. -/
theorem reach_consumes {i j : Nat} {s : List FullOp} (h : Reach i j s) :
    ((s.map fullDonors).flatten = List.range i) ∧
    ((s.map fullTargets).flatten = List.range j) := by
  induction h with
  | nil => simp
  | rmatch h ih =>
    rename_i i j s
    constructor <;> simp [fullDonors, fullTargets, ih.1, ih.2, List.range_succ]
  | rskipD h ih =>
    rename_i i j s
    constructor <;> simp [fullDonors, fullTargets, ih.1, ih.2, List.range_succ]
  | rskipT h ih =>
    rename_i i j s
    constructor <;> simp [fullDonors, fullTargets, ih.1, ih.2, List.range_succ]
  | rmerge h ih =>
    rename_i i j s
    constructor <;> simp [fullDonors, fullTargets, ih.1, ih.2, List.range_succ]
  | rsplit h ih =>
    rename_i i j s
    constructor <;> simp [fullDonors, fullTargets, ih.1, ih.2, List.range_succ]

theorem stripSkips_donors_sublist : ∀ s : List FullOp,
    (((stripSkips s).map entryDonors).flatten).Sublist ((s.map fullDonors).flatten) := by
  intro s
  induction s with
  | nil => simp [stripSkips]
  | cons op rest ih =>
    cases op with
    | fmatch di tj =>
      simp only [stripSkips, List.map_cons, List.flatten_cons]
      exact ih.append_left _
    | fmerge d1 d2 tj =>
      simp only [stripSkips, List.map_cons, List.flatten_cons]
      exact ih.append_left _
    | fsplit di t1 t2 =>
      simp only [stripSkips, List.map_cons, List.flatten_cons]
      exact ih.append_left _
    | fskipDonor di =>
      simp only [stripSkips, List.map_cons, List.flatten_cons]
      exact ih.trans (List.sublist_append_right _ _)
    | fskipTarget tj =>
      simp only [stripSkips, List.map_cons, List.flatten_cons]
      simp [fullDonors]
      exact ih

theorem stripSkips_targets_sublist : ∀ s : List FullOp,
    (((stripSkips s).map entryTargets).flatten).Sublist ((s.map fullTargets).flatten) := by
  intro s
  induction s with
  | nil => simp [stripSkips]
  | cons op rest ih =>
    cases op with
    | fmatch di tj =>
      simp only [stripSkips, List.map_cons, List.flatten_cons]
      exact ih.append_left _
    | fmerge d1 d2 tj =>
      simp only [stripSkips, List.map_cons, List.flatten_cons]
      exact ih.append_left _
    | fsplit di t1 t2 =>
      simp only [stripSkips, List.map_cons, List.flatten_cons]
      exact ih.append_left _
    | fskipDonor di =>
      simp only [stripSkips, List.map_cons, List.flatten_cons]
      simp [fullTargets]
      exact ih
    | fskipTarget tj =>
      simp only [stripSkips, List.map_cons, List.flatten_cons]
      exact ih.trans (List.sublist_append_right _ _)

/-- C1 amended: the backtracked path corresponds to a full op sequence
(with skip steps) that consumes donor indices below n and target indices
below m exactly once each, in increasing order; the entry list the
function returns is that sequence with skip steps omitted, so its donor
and target indices are each covered at most once, in increasing order,
with no overlap — but indices consumed by skip steps appear in no
returned op. -/
theorem align_partition (d : List DonorLine) (t : List (List Char)) :
    ∃ s : List FullOp, Reach d.length t.length s ∧
      stripSkips s = alignSequencesSync d t ∧
      ((s.map fullDonors).flatten = List.range d.length) ∧
      ((s.map fullTargets).flatten = List.range t.length) ∧
      ((((alignSequencesSync d t).map entryDonors).flatten).Sublist (List.range d.length)) ∧
      ((((alignSequencesSync d t).map entryTargets).flatten).Sublist (List.range t.length)) := by
  obtain ⟨s, hR, hcost, hbt⟩ :=
    dpB_backtrack d t (d.length + t.length) d.length t.length (le_refl _)
  have hstrip : stripSkips s = alignSequencesSync d t := by
    unfold alignSequencesSync
    rw [hbt (d.length + t.length) [] (le_refl _)]
    simp
  obtain ⟨hd, ht⟩ := reach_consumes hR
  refine ⟨s, hR, hstrip, hd, ht, ?_, ?_⟩
  · rw [← hstrip, ← hd]
    exact stripSkips_donors_sublist s
  · rw [← hstrip, ← ht]
    exact stripSkips_targets_sublist s

/-- C2: the alignment computed by alignSequencesSync is globally optimal:
there is a valid full op sequence realizing the returned entries (skips
omitted) whose total cost — Levenshtein distance for match, merge and
split, 2 per skipped donor line, 3 per skipped target line — is minimal
among all valid op sequences. -/
theorem align_min_cost (d : List DonorLine) (t : List (List Char)) :
    ∃ s : List FullOp, Reach d.length t.length s ∧
      stripSkips s = alignSequencesSync d t ∧
      ∀ s' : List FullOp, Reach d.length t.length s' →
        seqCost d t s ≤ seqCost d t s' := by
  obtain ⟨s, hR, hcost, hbt⟩ :=
    dpB_backtrack d t (d.length + t.length) d.length t.length (le_refl _)
  refine ⟨s, hR, ?_, ?_⟩
  · unfold alignSequencesSync
    rw [hbt (d.length + t.length) [] (le_refl _)]
    simp
  · intro s' hR'
    have hle := dpB_le_seqCost d t hR'
    rw [← hcost] at hle
    exact_mod_cast hle

/-- C1 counterexample: with one donor line and no target lines the only
possible step is a donor skip, and skip steps push no entry, so the
returned op sequence is empty and donor index 0 is left out of every op —
the claimed exactly-once cover of the donor indices fails. -/
theorem align_partition_counterexample :
    alignSequencesSync [⟨0, 1, ['a']⟩] [] = [] ∧
    ([⟨0, 1, ['a']⟩] : List DonorLine).length = 1 := by
  constructor
  · have hdp : (dpB [⟨0, 1, ['a']⟩] ([] : List (List Char)) 1 0).2 =
        some Act.actSkipDonor := by
      rw [dpB_eq _ _ (by omega)]
      have hcands : dpCands [⟨0, 1, ['a']⟩] ([] : List (List Char)) 1 0 =
          [(Act.actSkipDonor,
            (dpB [⟨0, 1, ['a']⟩] ([] : List (List Char)) 0 0).1 + ((2 : Nat) : WithTop Nat))] := by
        unfold dpCands
        rw [dif_neg (by omega : ¬(0 < 1 ∧ 0 < 0)), dif_pos (by omega : 0 < 1),
          dif_neg (by omega : ¬(0 < 0)), dif_neg (by omega : ¬(1 < 1 ∧ 0 < 0)),
          dif_neg (by omega : ¬(0 < 1 ∧ 1 < 0))]
        simp
      rw [hcands, dpB_zero]
      simp [pickMin]
      split
      · rfl
      · rename_i hcon
        exfalso
        exact hcon (by exact_mod_cast WithTop.coe_lt_top (2 : Nat))
    show btLoop _ (1 + 0) 1 0 [] = []
    simp only [btLoop]
    rw [if_pos (by omega : 0 < 1 ∨ 0 < 0)]
    rw [hdp]
  · rfl

/-- C10: the async alignSequences and the synchronous alignSequencesSync
are extensionally equal: they differ only by log statements. -/
theorem alignSequences_eq_sync (donorLines : List DonorLine)
    (targetLines : List (List Char)) :
    alignSequences donorLines targetLines = alignSequencesSync donorLines targetLines := rfl

/-- The final output unit: a timed text segment. -/
structure TimedSegment where
  start : ℚ
  end_ : ℚ
  text : List Char
  deriving Repr, DecidableEq

instance : Inhabited TimedSegment := ⟨⟨0, 0, []⟩⟩

/-- Segments pushed for one alignment entry by generateTimedSegments in
renderer.js: a match copies the donor's times, a merge spans from the
first merged donor's start to the last merged donor's end, a split divides
the donor's duration into equal parts, one per target index. -/
def segOf (donorLines : List DonorLine) (targetLines : List (List Char)) :
    AlignEntry → List TimedSegment
  | AlignEntry.matchE di tj =>
    [{ start := (donorLines.getD di default).start,
       end_ := (donorLines.getD di default).end_,
       text := targetLines.getD tj [] }]
  | AlignEntry.mergeE ds tj =>
    let donors := ds.map (fun idx => donorLines.getD idx default)
    [{ start := (donors.getD 0 default).start,
       end_ := (donors.getD (donors.length - 1) default).end_,
       text := targetLines.getD tj [] }]
  | AlignEntry.splitE di ts =>
    let donor := donorLines.getD di default
    let duration := donor.end_ - donor.start
    let numSplits := ts.length
    let splitDuration := duration / (numSplits : ℚ)
    (List.range ts.length).map (fun (k : Nat) =>
      { start := donor.start + (k : ℚ) * splitDuration,
        end_ := donor.start + ((k : ℚ) + 1) * splitDuration,
        text := targetLines.getD (ts.getD k 0) [] })

/-- Model of generateTimedSegments from renderer.js: concatenate the
segments each alignment entry pushes, in order. -/
def generateTimedSegments (alignments : List AlignEntry) (donorLines : List DonorLine)
    (targetLines : List (List Char)) : List TimedSegment :=
  (alignments.map (segOf donorLines targetLines)).flatten

/-- C7 counterexample: a merge of two donor lines with a gap between them
produces one segment spanning first start to last end, whose span (3)
exceeds the span of each single merged donor line (1 each) — the claimed
per-donor-line span bound fails for MergeDonor ops. -/
theorem segmentBuilder_span_counterexample :
    generateTimedSegments [AlignEntry.mergeE [0, 1] 0]
      [⟨0, 1, []⟩, ⟨2, 3, []⟩] [['x']] = [⟨0, 3, ['x']⟩] ∧
    ((3 : ℚ) - 0 > 1 - 0 ∧ (3 : ℚ) - 0 > 3 - 2) := by
  refine ⟨?_, by norm_num⟩
  rfl

theorem getD_map_of_lt {α β : Type} (f : α → β) (l : List α) {n : Nat}
    (h : n < l.length) (d0 : α) (d1 : β) :
    (l.map f).getD n d1 = f (l.getD n d0) := by
  rw [List.getD_eq_getElem?_getD, List.getElem?_map, List.getElem?_eq_getElem h]
  rw [List.getD_eq_getElem l d0 h]
  rfl

/-- C7 amended: a Match segment copies the donor line's start and end
verbatim with the target's text; a MergeDonor segment spans from the first
merged donor line's start to the last merged donor line's end (which can
exceed a single merged line's own span); a SplitTarget op divides the
donor line's duration into equal, contiguous, non-overlapping
sub-intervals, one per target index in order, together exactly covering
the donor's interval, so for Match and Split ops the total span produced
from the donor line equals — hence never exceeds — that line's span. -/
theorem segmentBuilder_spec (d : List DonorLine) (t : List (List Char))
    (di tj : Nat) (ds ts : List Nat) (hds : ds ≠ []) (hts : ts ≠ []) :
    segOf d t (AlignEntry.matchE di tj) =
      [{ start := (d.getD di default).start, end_ := (d.getD di default).end_,
         text := t.getD tj [] }] ∧
    segOf d t (AlignEntry.mergeE ds tj) =
      [{ start := (d.getD (ds.getD 0 0) default).start,
         end_ := (d.getD (ds.getD (ds.length - 1) 0) default).end_,
         text := t.getD tj [] }] ∧
    (segOf d t (AlignEntry.splitE di ts)).length = ts.length ∧
    (∀ k, k < ts.length →
      ((segOf d t (AlignEntry.splitE di ts)).getD k default).end_ -
        ((segOf d t (AlignEntry.splitE di ts)).getD k default).start =
        ((d.getD di default).end_ - (d.getD di default).start) / (ts.length : ℚ) ∧
      ((segOf d t (AlignEntry.splitE di ts)).getD k default).text =
        t.getD (ts.getD k 0) []) ∧
    (∀ k, k + 1 < ts.length →
      ((segOf d t (AlignEntry.splitE di ts)).getD k default).end_ =
        ((segOf d t (AlignEntry.splitE di ts)).getD (k + 1) default).start) ∧
    ((segOf d t (AlignEntry.splitE di ts)).getD 0 default).start =
      (d.getD di default).start ∧
    ((segOf d t (AlignEntry.splitE di ts)).getD (ts.length - 1) default).end_ =
      (d.getD di default).end_ ∧
    ((segOf d t (AlignEntry.splitE di ts)).map (fun sg => sg.end_ - sg.start)).sum =
      (d.getD di default).end_ - (d.getD di default).start := by
  have hlen : 0 < ts.length := List.length_pos.2 hts
  have hdlen : 0 < ds.length := List.length_pos.2 hds
  have hlq : ((ts.length : ℚ)) ≠ 0 := by
    exact_mod_cast hlen.ne'
  refine ⟨rfl, ?_, ?_, ?_, ?_, ?_, ?_, ?_⟩
  · simp only [segOf, List.length_map]
    rw [getD_map_of_lt _ ds hdlen 0 default,
      getD_map_of_lt _ ds (by omega : ds.length - 1 < ds.length) 0 default]
  · simp [segOf]
  · intro k hk
    simp only [segOf]
    rw [getD_map_range _ hk]
    constructor
    · ring
    · rfl
  · intro k hk
    simp only [segOf]
    rw [getD_map_range _ hk, getD_map_range _ (by omega : k < ts.length)]
    push_cast
    ring
  · simp only [segOf]
    rw [getD_map_range _ hlen]
    push_cast
    ring
  · simp only [segOf]
    rw [getD_map_range _ (by omega : ts.length - 1 < ts.length)]
    rw [Nat.cast_sub (by omega : 1 ≤ ts.length)]
    push_cast
    field_simp
  · simp only [segOf, List.map_map]
    have hconst : ∀ k ∈ List.range ts.length,
        ((fun sg : TimedSegment => sg.end_ - sg.start) ∘ fun (k : Nat) =>
          ({ start := (d.getD di default).start +
                (k : ℚ) * (((d.getD di default).end_ - (d.getD di default).start) /
                  ((ts.length : Nat) : ℚ)),
             end_ := (d.getD di default).start +
                ((k : ℚ) + 1) * (((d.getD di default).end_ - (d.getD di default).start) /
                  ((ts.length : Nat) : ℚ)),
             text := t.getD (ts.getD k 0) [] } : TimedSegment)) k =
        ((d.getD di default).end_ - (d.getD di default).start) / ((ts.length : Nat) : ℚ) := by
      intro k _
      simp only [Function.comp]
      ring
    rw [List.map_congr_left hconst]
    rw [List.map_const']
    rw [List.sum_replicate, List.length_range, nsmul_eq_mul]
    field_simp

/-- Concrete donor input used by the segment-builder witness. -/
def wDonor : List DonorLine := [⟨0, 2, ['a']⟩]

/-- Concrete target input used by the segment-builder witness. -/
def wTarget : List (List Char) := [['x'], ['y']]

theorem segmentBuilder_spec_witness :
    (([0] : List Nat) ≠ []) ∧ (([0, 1] : List Nat) ≠ []) ∧
    (segOf wDonor wTarget (AlignEntry.matchE 0 0) =
      [{ start := (wDonor.getD 0 default).start, end_ := (wDonor.getD 0 default).end_,
         text := wTarget.getD 0 [] }] ∧
    segOf wDonor wTarget (AlignEntry.mergeE [0] 0) =
      [{ start := (wDonor.getD (([0] : List Nat).getD 0 0) default).start,
         end_ := (wDonor.getD (([0] : List Nat).getD (([0] : List Nat).length - 1) 0)
           default).end_,
         text := wTarget.getD 0 [] }] ∧
    (segOf wDonor wTarget (AlignEntry.splitE 0 [0, 1])).length = ([0, 1] : List Nat).length ∧
    (∀ k, k < ([0, 1] : List Nat).length →
      ((segOf wDonor wTarget (AlignEntry.splitE 0 [0, 1])).getD k default).end_ -
        ((segOf wDonor wTarget (AlignEntry.splitE 0 [0, 1])).getD k default).start =
        ((wDonor.getD 0 default).end_ - (wDonor.getD 0 default).start) /
          ((([0, 1] : List Nat).length : Nat) : ℚ) ∧
      ((segOf wDonor wTarget (AlignEntry.splitE 0 [0, 1])).getD k default).text =
        wTarget.getD (([0, 1] : List Nat).getD k 0) []) ∧
    (∀ k, k + 1 < ([0, 1] : List Nat).length →
      ((segOf wDonor wTarget (AlignEntry.splitE 0 [0, 1])).getD k default).end_ =
        ((segOf wDonor wTarget (AlignEntry.splitE 0 [0, 1])).getD (k + 1) default).start) ∧
    ((segOf wDonor wTarget (AlignEntry.splitE 0 [0, 1])).getD 0 default).start =
      (wDonor.getD 0 default).start ∧
    ((segOf wDonor wTarget
        (AlignEntry.splitE 0 [0, 1])).getD (([0, 1] : List Nat).length - 1) default).end_ =
      (wDonor.getD 0 default).end_ ∧
    ((segOf wDonor wTarget (AlignEntry.splitE 0 [0, 1])).map
        (fun sg => sg.end_ - sg.start)).sum =
      (wDonor.getD 0 default).end_ - (wDonor.getD 0 default).start) :=
  ⟨by decide, by decide,
    segmentBuilder_spec wDonor wTarget 0 0 [0] [0, 1] (by decide) (by decide)⟩

/-- Substring containment, as String.prototype.includes: the first list
occurs contiguously inside the second. -/
def jsIncludes (sub l : List Char) : Bool :=
  decide (sub <:+: l)

/-- Removal of every whitespace character, as the global replacement of
whitespace runs by the empty string does in the continuation check. -/
def noSpaces (l : List Char) : List Char :=
  l.filter (fun c => !isWsJS c)

/-- Accumulator of the content-matching loop of alignLyricsToSubtitles:
the reference cursor (lyricsIndex), the running similarity sum, and the
emitted outputs in order. -/
structure CAState where
  lyricsIndex : Nat
  totalSimilarity : ℚ
  aligned : List (List Char)
  deriving Repr, DecidableEq

/-- A candidate combination of consecutive reference lines, as built by
the combination loop. -/
structure Combo where
  text : List Char
  lines : List (List Char)
  numLines : Nat
  score : ℚ
  deriving Repr, DecidableEq

/-- The combination loop: try joining 1 to 4 consecutive unconsumed
reference lines, score each against the cue with the external similarity
function, keep the strictly best, stop early past 0.90 or when the slice
would run past the end of the reference. -/
def comboLoop (sim : List Char → List Char → ℚ) (lyricsLines : List (List Char))
    (lyricsIndex : Nat) (normalizedSub : List Char) :
    Nat → Nat → Option Combo → ℚ → Option Combo
  | _, 0, best, _ => best
  | numLines, rem + 1, best, bestScore =>
    if lyricsLines.length < lyricsIndex + numLines then best
    else
      let combinedLines := jsSlice lyricsLines lyricsIndex (lyricsIndex + numLines)
      let combined := List.intercalate ", ".data combinedLines
      let score := sim normalizedSub (normalizeTextL combined)
      let best' := if bestScore < score then
          some { text := combined, lines := combinedLines, numLines := numLines,
                 score := score }
        else best
      let bestScore' := if bestScore < score then score else bestScore
      if (9 : ℚ)/10 < score then best'
      else comboLoop sim lyricsLines lyricsIndex normalizedSub (numLines + 1) rem best'
        bestScore'

/-- The anti-greedy shrink loop: scan the later lines of the chosen
combination; when the next cue matches one of them strongly (match above
0.75 and reverse coverage above 0.80), cut the combination just before
that line and re-score it. -/
def shrinkLoop (sim : List Char → List Char → ℚ) (normalizedSub nextNorm : List Char)
    (b : Combo) : Nat → Nat → Combo
  | _, 0 => b
  | j, rem + 1 =>
    if j < b.numLines then
      (let potential := normalizeTextL (b.lines.getD j [])
       let nextMatchScore := sim nextNorm potential
       let reverseMatchScore :=
         if jsIncludes nextNorm potential then (1 : ℚ) else sim potential nextNorm
       if (3 : ℚ)/4 < nextMatchScore ∧ (4 : ℚ)/5 < reverseMatchScore then
         { text := List.intercalate ", ".data (b.lines.take j),
           lines := b.lines.take j,
           numLines := j,
           score := sim normalizedSub
             (normalizeTextL (List.intercalate ", ".data (b.lines.take j))) }
       else shrinkLoop sim normalizedSub nextNorm b (j + 1) rem)
    else b

/-- The combination chosen for one cue: the best of the combination loop,
shrunk by the anti-greedy check when there is a next cue with non-empty
normalization, the combination spans more than one line, and the next cue
is not already a continuation of the combination. -/
def chooseCombo (sim : List Char → List Char → ℚ) (lyricsLines : List (List Char))
    (lyricsIndex : Nat) (normalizedSub : List Char) (nextRom : Option (List Char)) :
    Option Combo :=
  match comboLoop sim lyricsLines lyricsIndex normalizedSub 1 4 none 0 with
  | none => none
  | some b =>
    match nextRom with
    | none => some b
    | some nr =>
      if 1 < b.numLines then
        (let nextNorm := normalizeTextL nr
         if nextNorm = [] then some b
         else if jsIncludes nextNorm (normalizeTextL b.text) then some b
         else some (shrinkLoop sim normalizedSub nextNorm b 1 b.numLines))
      else some b

/-- The continuation condition: the preceding output exists, is
non-blank, and the cue's normalized text with whitespace removed is a
long-enough substring of the preceding output's normalized
whitespace-free text. -/
def contCond (s : CAState) (normalizedSub : List Char) : Bool :=
  match s.aligned.getLast? with
  | some prev =>
      !prev.isEmpty &&
      jsIncludes (noSpaces normalizedSub) (noSpaces (normalizeTextL prev)) &&
      decide (3 < (noSpaces normalizedSub).length)
  | none => false

/-- One iteration of the content-matching loop of alignLyricsToSubtitles,
for the cue with the given romanization and the romanization of the next
cue when one exists. -/
def contentStep (sim : List Char → List Char → ℚ) (lyricsLines : List (List Char))
    (s : CAState) (romanizedSub : List Char) (nextRom : Option (List Char)) : CAState :=
  let normalizedSub := normalizeTextL romanizedSub
  if normalizedSub = [] then
    if s.lyricsIndex < lyricsLines.length then
      ⟨s.lyricsIndex + 1, s.totalSimilarity,
        s.aligned ++ [lyricsLines.getD s.lyricsIndex []]⟩
    else ⟨s.lyricsIndex, s.totalSimilarity, s.aligned ++ [[]]⟩
  else if contCond s normalizedSub then
    ⟨s.lyricsIndex, s.totalSimilarity + 19/20, s.aligned ++ [s.aligned.getLast?.getD []]⟩
  else
    match chooseCombo sim lyricsLines s.lyricsIndex normalizedSub nextRom with
    | some b =>
      if (2 : ℚ)/5 < b.score then
        ⟨s.lyricsIndex + b.numLines, s.totalSimilarity + b.score, s.aligned ++ [b.text]⟩
      else if s.lyricsIndex < lyricsLines.length then
        ⟨s.lyricsIndex + 1, s.totalSimilarity + 3/10,
          s.aligned ++ [lyricsLines.getD s.lyricsIndex []]⟩
      else ⟨s.lyricsIndex, s.totalSimilarity + 0, s.aligned ++ [[]]⟩
    | none =>
      if s.lyricsIndex < lyricsLines.length then
        ⟨s.lyricsIndex + 1, s.totalSimilarity + 3/10,
          s.aligned ++ [lyricsLines.getD s.lyricsIndex []]⟩
      else ⟨s.lyricsIndex, s.totalSimilarity + 0, s.aligned ++ [[]]⟩

/-- The content-matching loop over the romanized cues, threading the
accumulator; the anti-greedy check of each step looks at the next cue. -/
def contentLoop (sim : List Char → List Char → ℚ) (lyricsLines : List (List Char)) :
    List (List Char) → CAState → CAState
  | [], s => s
  | r :: rest, s =>
      contentLoop sim lyricsLines rest (contentStep sim lyricsLines s r rest.head?)

/-- The content-matching core of alignLyricsToSubtitles from
src/server/index.js, from the reference-line filtering onwards.  The
romanization of the subtitle lines (an external service in the source)
is taken as input, and the external string-similarity scorer is the sim
parameter. -/
def alignLyricsToSubtitles (sim : List Char → List Char → ℚ) (geniusLyrics : List Char)
    (romanizedSubs : List (List Char)) : AlignResult :=
  let lyricsLines := filterLyricsContent geniusLyrics
  if lyricsLines.length = 0 then
    { ok := false, reason := some "no_lyric_lines" }
  else
    let final := contentLoop sim lyricsLines romanizedSubs ⟨0, 0, []⟩
    let avgConfidence := final.totalSimilarity / (romanizedSubs.length : ℚ)
    if avgConfidence < 9/20 then
      { ok := false, reason := some "low_confidence", confidence := some avgConfidence,
        aligned := some final.aligned }
    else
      { ok := true, aligned := some final.aligned, confidence := some avgConfidence,
        method := some "kuroshiro-content-matching" }

/-- Score added for each cue, in order: the increments of the running
similarity sum along the loop. -/
def cueScores (sim : List Char → List Char → ℚ) (lyricsLines : List (List Char)) :
    List (List Char) → CAState → List ℚ
  | [], _ => []
  | r :: rest, s =>
      ((contentStep sim lyricsLines s r rest.head?).totalSimilarity - s.totalSimilarity) ::
        cueScores sim lyricsLines rest (contentStep sim lyricsLines s r rest.head?)

/-- C3: when the preceding output is non-blank and the cue's normalized
whitespace-free text is a substring of it of length above 3, the step
re-emits the preceding output verbatim, adds exactly 0.95 to the running
confidence sum, and leaves the reference cursor unchanged. -/
theorem contentStep_continuation (sim : List Char → List Char → ℚ)
    (lyricsLines : List (List Char)) (s : CAState) (cue : List Char)
    (nextRom : Option (List Char)) (prev : List Char)
    (hprev : s.aligned.getLast? = some prev) (hne : prev ≠ [])
    (hinf : jsIncludes (noSpaces (normalizeTextL cue)) (noSpaces (normalizeTextL prev)) = true)
    (hlen : 3 < (noSpaces (normalizeTextL cue)).length) :
    contentStep sim lyricsLines s cue nextRom =
      ⟨s.lyricsIndex, s.totalSimilarity + 19/20, s.aligned ++ [prev]⟩ := by
  have hsub : ¬(normalizeTextL cue = []) := by
    intro h
    rw [h] at hlen
    simp [noSpaces] at hlen
  have hcc : contCond s (normalizeTextL cue) = true := by
    unfold contCond
    rw [hprev]
    have hne' : prev.isEmpty = false := by
      cases prev with
      | nil => exact absurd rfl hne
      | cons x xs => rfl
    simp [hne', hinf, hlen]
  simp only [contentStep]
  rw [if_neg hsub, if_pos hcc, hprev]
  simp

theorem contentStep_continuation_witness :
    (⟨0, 0, ["abcde".data]⟩ : CAState).aligned.getLast? = some "abcde".data ∧
    "abcde".data ≠ [] ∧
    jsIncludes (noSpaces (normalizeTextL "abcd".data))
      (noSpaces (normalizeTextL "abcde".data)) = true ∧
    3 < (noSpaces (normalizeTextL "abcd".data)).length ∧
    contentStep (fun _ _ => (0 : ℚ)) [] ⟨0, 0, ["abcde".data]⟩ "abcd".data none =
      ⟨(⟨0, 0, ["abcde".data]⟩ : CAState).lyricsIndex,
       (⟨0, 0, ["abcde".data]⟩ : CAState).totalSimilarity + 19/20,
       (⟨0, 0, ["abcde".data]⟩ : CAState).aligned ++ ["abcde".data]⟩ :=
  ⟨by decide, by decide, by decide, by decide,
   contentStep_continuation _ _ _ _ _ _ (by decide) (by decide) (by decide) (by decide)⟩

theorem shrinkLoop_numLines (sim : List Char → List Char → ℚ)
    (nsub nn : List Char) (b : Combo) :
    ∀ rem j, 1 ≤ j →
      shrinkLoop sim nsub nn b j rem = b ∨
      (1 ≤ (shrinkLoop sim nsub nn b j rem).numLines ∧
       (shrinkLoop sim nsub nn b j rem).numLines < b.numLines) := by
  intro rem
  induction rem with
  | zero => intro j _; exact Or.inl rfl
  | succ r ih =>
    intro j hj
    simp only [shrinkLoop]
    split
    · rename_i hjlt
      by_cases hcond : (3 : ℚ)/4 < sim nn (normalizeTextL (b.lines.getD j [])) ∧
          (4 : ℚ)/5 < (if jsIncludes nn (normalizeTextL (b.lines.getD j [])) then (1 : ℚ)
                       else sim (normalizeTextL (b.lines.getD j [])) nn)
      · rw [if_pos hcond]
        exact Or.inr ⟨hj, hjlt⟩
      · rw [if_neg hcond]
        exact ih (j + 1) (by omega)
    · exact Or.inl rfl

theorem comboLoop_bound (sim : List Char → List Char → ℚ)
    (lyr : List (List Char)) (idx : Nat) (nsub : List Char) :
    ∀ rem numLines (best : Option Combo) (bestScore : ℚ),
      1 ≤ numLines →
      (∀ b, best = some b → idx + b.numLines ≤ lyr.length ∧ 1 ≤ b.numLines) →
      ∀ b, comboLoop sim lyr idx nsub numLines rem best bestScore = some b →
        idx + b.numLines ≤ lyr.length ∧ 1 ≤ b.numLines := by
  intro rem
  induction rem with
  | zero =>
    intro numLines best bestScore _ hbest b hb
    exact hbest b hb
  | succ r ih =>
    intro numLines best bestScore hnum hbest b hb
    simp only [comboLoop] at hb
    split at hb
    · exact hbest b hb
    · rename_i hfit
      split at hb
      · -- early stop past 0.90: result is the updated best
        split at hb
        · rename_i himp
          rw [Option.some.inj hb.symm]
          refine ⟨?_, ?_⟩
          · show idx + numLines ≤ lyr.length
            omega
          · show 1 ≤ numLines
            exact hnum
        · exact hbest b hb
      · -- recursive call with numLines + 1
        refine ih (numLines + 1) _ _ (by omega) ?_ b hb
        intro b' hb'
        split at hb'
        · rw [Option.some.inj hb'.symm]
          refine ⟨?_, ?_⟩
          · show idx + numLines ≤ lyr.length
            omega
          · show 1 ≤ numLines
            exact hnum
        · exact hbest b' hb'

theorem chooseCombo_bound (sim : List Char → List Char → ℚ)
    (lyr : List (List Char)) (idx : Nat) (nsub : List Char)
    (nxt : Option (List Char)) :
    ∀ b, chooseCombo sim lyr idx nsub nxt = some b →
      idx + b.numLines ≤ lyr.length ∧ 1 ≤ b.numLines := by
  intro b hb
  unfold chooseCombo at hb
  cases hcl : comboLoop sim lyr idx nsub 1 4 none 0 with
  | none => rw [hcl] at hb; simp at hb
  | some b0 =>
    have hb0 : idx + b0.numLines ≤ lyr.length ∧ 1 ≤ b0.numLines :=
      comboLoop_bound sim lyr idx nsub 4 1 none 0 (le_refl _) (by intro b' h'; simp at h')
        b0 hcl
    rw [hcl] at hb
    cases nxt with
    | none =>
      simp at hb
      rw [← hb]
      exact hb0
    | some nr =>
      simp only at hb
      split at hb
      · rename_i hgt1
        split at hb
        · simp at hb; rw [← hb]; exact hb0
        · split at hb
          · simp at hb; rw [← hb]; exact hb0
          · simp at hb
            rcases shrinkLoop_numLines sim nsub (normalizeTextL nr) b0 b0.numLines 1
                (le_refl _) with hsh | hsh
            · rw [← hb, hsh]
              exact hb0
            · rw [← hb]
              exact ⟨by omega, hsh.1⟩
      · simp at hb; rw [← hb]; exact hb0

theorem contentStep_cursor (sim : List Char → List Char → ℚ)
    (lyr : List (List Char)) (s : CAState) (cue : List Char)
    (nxt : Option (List Char)) (h : s.lyricsIndex ≤ lyr.length) :
    (contentStep sim lyr s cue nxt).lyricsIndex ≤ lyr.length := by
  simp only [contentStep]
  split
  · split
    · rename_i hlt
      simpa using hlt
    · simpa using h
  · split
    · simpa using h
    · split
      · rename_i b hb
        split
        · have := chooseCombo_bound sim lyr s.lyricsIndex (normalizeTextL cue) nxt b hb
          simpa using this.1
        · split
          · rename_i hlt
            simpa using hlt
          · simpa using h
      · split
        · rename_i hlt
          simpa using hlt
        · simpa using h

theorem contentLoop_cursor (sim : List Char → List Char → ℚ)
    (lyr : List (List Char)) :
    ∀ (roms : List (List Char)) (s : CAState), s.lyricsIndex ≤ lyr.length →
      (contentLoop sim lyr roms s).lyricsIndex ≤ lyr.length := by
  intro roms
  induction roms with
  | nil => intro s h; exact h
  | cons r rest ih =>
    intro s h
    exact ih _ (contentStep_cursor sim lyr s r rest.head? h)

/-- C9: the reference cursor never exceeds the reference length along the
loop; an accepted combination (score strictly above 0.4) advances the
cursor by exactly the number of lines it consumed while staying in
bounds; when no combination clears 0.4 the step consumes exactly one
reference line at a fixed 0.3 when any remain, and emits a blank output
adding 0 once the reference is exhausted. -/
theorem contentAligner_cursor_spec (sim : List Char → List Char → ℚ)
    (lyricsLines : List (List Char)) (roms : List (List Char)) (s : CAState)
    (h : s.lyricsIndex ≤ lyricsLines.length) :
    (contentLoop sim lyricsLines roms s).lyricsIndex ≤ lyricsLines.length ∧
    (∀ cue nxt b, ¬(normalizeTextL cue = []) →
      contCond s (normalizeTextL cue) = false →
      chooseCombo sim lyricsLines s.lyricsIndex (normalizeTextL cue) nxt = some b →
      (2 : ℚ)/5 < b.score →
      contentStep sim lyricsLines s cue nxt =
        ⟨s.lyricsIndex + b.numLines, s.totalSimilarity + b.score, s.aligned ++ [b.text]⟩ ∧
      s.lyricsIndex + b.numLines ≤ lyricsLines.length) ∧
    (∀ cue nxt, ¬(normalizeTextL cue = []) →
      contCond s (normalizeTextL cue) = false →
      (∀ b, chooseCombo sim lyricsLines s.lyricsIndex (normalizeTextL cue) nxt = some b →
        ¬((2 : ℚ)/5 < b.score)) →
      s.lyricsIndex < lyricsLines.length →
      contentStep sim lyricsLines s cue nxt =
        ⟨s.lyricsIndex + 1, s.totalSimilarity + 3/10,
         s.aligned ++ [lyricsLines.getD s.lyricsIndex []]⟩) ∧
    (∀ cue nxt, ¬(normalizeTextL cue = []) →
      contCond s (normalizeTextL cue) = false →
      (∀ b, chooseCombo sim lyricsLines s.lyricsIndex (normalizeTextL cue) nxt = some b →
        ¬((2 : ℚ)/5 < b.score)) →
      lyricsLines.length ≤ s.lyricsIndex →
      contentStep sim lyricsLines s cue nxt =
        ⟨s.lyricsIndex, s.totalSimilarity + 0, s.aligned ++ [[]]⟩) := by
  refine ⟨contentLoop_cursor sim lyricsLines roms s h, ?_, ?_, ?_⟩
  · intro cue nxt b hsub hcont hchoose hscore
    constructor
    · simp only [contentStep]
      rw [if_neg hsub, if_neg (by simp [hcont] : ¬(contCond s (normalizeTextL cue) = true))]
      simp only [hchoose]
      rw [if_pos hscore]
    · exact (chooseCombo_bound sim lyricsLines s.lyricsIndex (normalizeTextL cue) nxt
        b hchoose).1
  · intro cue nxt hsub hcont hnb hlt
    simp only [contentStep]
    rw [if_neg hsub, if_neg (by simp [hcont] : ¬(contCond s (normalizeTextL cue) = true))]
    cases hcl : chooseCombo sim lyricsLines s.lyricsIndex (normalizeTextL cue) nxt with
    | some b =>
      simp only [hcl]
      rw [if_neg (hnb b hcl), if_pos hlt]
    | none =>
      simp only [hcl]
      rw [if_pos hlt]
  · intro cue nxt hsub hcont hnb hge
    simp only [contentStep]
    rw [if_neg hsub, if_neg (by simp [hcont] : ¬(contCond s (normalizeTextL cue) = true))]
    cases hcl : chooseCombo sim lyricsLines s.lyricsIndex (normalizeTextL cue) nxt with
    | some b =>
      simp only [hcl]
      rw [if_neg (hnb b hcl), if_neg (by omega : ¬(s.lyricsIndex < lyricsLines.length))]
    | none =>
      simp only [hcl]
      rw [if_neg (by omega : ¬(s.lyricsIndex < lyricsLines.length))]

theorem contentAligner_cursor_spec_witness :
    ((⟨0, 0, []⟩ : CAState).lyricsIndex ≤ ([['a']] : List (List Char)).length) ∧
    (    (contentLoop (fun _ _ => (0 : ℚ)) ([['a']] : List (List Char)) ([] : List (List Char)) (⟨0, 0, []⟩ : CAState)).lyricsIndex ≤ ([['a']] : List (List Char)).length ∧
    (∀ cue nxt b, ¬(normalizeTextL cue = []) →
      contCond (⟨0, 0, []⟩ : CAState) (normalizeTextL cue) = false →
      chooseCombo (fun _ _ => (0 : ℚ)) ([['a']] : List (List Char)) (⟨0, 0, []⟩ : CAState).lyricsIndex (normalizeTextL cue) nxt = some b →
      (2 : ℚ)/5 < b.score →
      contentStep (fun _ _ => (0 : ℚ)) ([['a']] : List (List Char)) (⟨0, 0, []⟩ : CAState) cue nxt =
        ⟨(⟨0, 0, []⟩ : CAState).lyricsIndex + b.numLines, (⟨0, 0, []⟩ : CAState).totalSimilarity + b.score, (⟨0, 0, []⟩ : CAState).aligned ++ [b.text]⟩ ∧
      (⟨0, 0, []⟩ : CAState).lyricsIndex + b.numLines ≤ ([['a']] : List (List Char)).length) ∧
    (∀ cue nxt, ¬(normalizeTextL cue = []) →
      contCond (⟨0, 0, []⟩ : CAState) (normalizeTextL cue) = false →
      (∀ b, chooseCombo (fun _ _ => (0 : ℚ)) ([['a']] : List (List Char)) (⟨0, 0, []⟩ : CAState).lyricsIndex (normalizeTextL cue) nxt = some b →
        ¬((2 : ℚ)/5 < b.score)) →
      (⟨0, 0, []⟩ : CAState).lyricsIndex < ([['a']] : List (List Char)).length →
      contentStep (fun _ _ => (0 : ℚ)) ([['a']] : List (List Char)) (⟨0, 0, []⟩ : CAState) cue nxt =
        ⟨(⟨0, 0, []⟩ : CAState).lyricsIndex + 1, (⟨0, 0, []⟩ : CAState).totalSimilarity + 3/10,
         (⟨0, 0, []⟩ : CAState).aligned ++ [([['a']] : List (List Char)).getD (⟨0, 0, []⟩ : CAState).lyricsIndex []]⟩) ∧
    (∀ cue nxt, ¬(normalizeTextL cue = []) →
      contCond (⟨0, 0, []⟩ : CAState) (normalizeTextL cue) = false →
      (∀ b, chooseCombo (fun _ _ => (0 : ℚ)) ([['a']] : List (List Char)) (⟨0, 0, []⟩ : CAState).lyricsIndex (normalizeTextL cue) nxt = some b →
        ¬((2 : ℚ)/5 < b.score)) →
      ([['a']] : List (List Char)).length ≤ (⟨0, 0, []⟩ : CAState).lyricsIndex →
      contentStep (fun _ _ => (0 : ℚ)) ([['a']] : List (List Char)) (⟨0, 0, []⟩ : CAState) cue nxt =
        ⟨(⟨0, 0, []⟩ : CAState).lyricsIndex, (⟨0, 0, []⟩ : CAState).totalSimilarity + 0, (⟨0, 0, []⟩ : CAState).aligned ++ [[]]⟩)) :=
  ⟨by decide, contentAligner_cursor_spec (fun _ _ => (0 : ℚ)) [['a']] [] ⟨0, 0, []⟩ (by decide)⟩

theorem cueScores_sum (sim : List Char → List Char → ℚ) (lyr : List (List Char)) :
    ∀ (roms : List (List Char)) (s : CAState),
      s.totalSimilarity + (cueScores sim lyr roms s).sum =
        (contentLoop sim lyr roms s).totalSimilarity := by
  intro roms
  induction roms with
  | nil => intro s; simp [cueScores, contentLoop]
  | cons r rest ih =>
    intro s
    simp only [cueScores, contentLoop, List.sum_cons]
    rw [← ih (contentStep sim lyr s r rest.head?)]
    ring

theorem cueScores_length (sim : List Char → List Char → ℚ) (lyr : List (List Char)) :
    ∀ (roms : List (List Char)) (s : CAState),
      (cueScores sim lyr roms s).length = roms.length := by
  intro roms
  induction roms with
  | nil => intro s; rfl
  | cons r rest ih =>
    intro s
    simp only [cueScores, List.length_cons]
    rw [ih]

/-- C4: the final confidence is the sum of the per-cue scores divided by
the number of donor cues; the result is rejected exactly when that
confidence is strictly below 0.45, carrying ok:false, the low_confidence
reason, the confidence, and the computed aligned output; at or above
0.45 the result is ok:true with the same confidence. -/
theorem contentAligner_confidence (sim : List Char → List Char → ℚ)
    (geniusLyrics : List Char) (roms : List (List Char))
    (hlyr : filterLyricsContent geniusLyrics ≠ []) (_hroms : roms ≠ []) :
    (cueScores sim (filterLyricsContent geniusLyrics) roms ⟨0, 0, []⟩).length =
      roms.length ∧
    (alignLyricsToSubtitles sim geniusLyrics roms).confidence =
      some ((cueScores sim (filterLyricsContent geniusLyrics) roms ⟨0, 0, []⟩).sum /
        (roms.length : ℚ)) ∧
    ((cueScores sim (filterLyricsContent geniusLyrics) roms ⟨0, 0, []⟩).sum /
        (roms.length : ℚ) < 9/20 →
      alignLyricsToSubtitles sim geniusLyrics roms =
        { ok := false, reason := some "low_confidence",
          confidence := some
            ((cueScores sim (filterLyricsContent geniusLyrics) roms ⟨0, 0, []⟩).sum /
              (roms.length : ℚ)),
          aligned := some
            (contentLoop sim (filterLyricsContent geniusLyrics) roms ⟨0, 0, []⟩).aligned }) ∧
    (9/20 ≤ (cueScores sim (filterLyricsContent geniusLyrics) roms ⟨0, 0, []⟩).sum /
        (roms.length : ℚ) →
      alignLyricsToSubtitles sim geniusLyrics roms =
        { ok := true,
          aligned := some
            (contentLoop sim (filterLyricsContent geniusLyrics) roms ⟨0, 0, []⟩).aligned,
          confidence := some
            ((cueScores sim (filterLyricsContent geniusLyrics) roms ⟨0, 0, []⟩).sum /
              (roms.length : ℚ)),
          method := some "kuroshiro-content-matching" }) := by
  have hne0 : ¬((filterLyricsContent geniusLyrics).length = 0) := by
    intro h
    exact hlyr (List.length_eq_zero.1 h)
  have hsum : (contentLoop sim (filterLyricsContent geniusLyrics) roms
      ⟨0, 0, []⟩).totalSimilarity =
      (cueScores sim (filterLyricsContent geniusLyrics) roms ⟨0, 0, []⟩).sum := by
    have h := cueScores_sum sim (filterLyricsContent geniusLyrics) roms ⟨0, 0, []⟩
    have h0 : (⟨0, 0, []⟩ : CAState).totalSimilarity = 0 := rfl
    rw [h0] at h
    rw [← h]
    ring
  refine ⟨cueScores_length sim _ roms _, ?_, ?_, ?_⟩
  · simp only [alignLyricsToSubtitles]
    rw [if_neg hne0, hsum]
    by_cases hc : (cueScores sim (filterLyricsContent geniusLyrics) roms ⟨0, 0, []⟩).sum /
        (roms.length : ℚ) < 9/20
    · rw [if_pos hc]
    · rw [if_neg hc]
  · intro hc
    simp only [alignLyricsToSubtitles]
    rw [if_neg hne0, hsum, if_pos hc]
  · intro hc
    simp only [alignLyricsToSubtitles]
    rw [if_neg hne0, hsum, if_neg (not_lt.2 hc)]

theorem contentAligner_confidence_witness :
    filterLyricsContent ("hello").data ≠ [] ∧ ([['x']] : List (List Char)) ≠ [] ∧
    ((cueScores (fun _ _ => (0 : ℚ)) (filterLyricsContent ("hello").data) ([['x']] : List (List Char)) ⟨0, 0, []⟩).length =
      ([['x']] : List (List Char)).length ∧
    (alignLyricsToSubtitles (fun _ _ => (0 : ℚ)) ("hello").data ([['x']] : List (List Char))).confidence =
      some ((cueScores (fun _ _ => (0 : ℚ)) (filterLyricsContent ("hello").data) ([['x']] : List (List Char)) ⟨0, 0, []⟩).sum /
        (([['x']] : List (List Char)).length : ℚ)) ∧
    ((cueScores (fun _ _ => (0 : ℚ)) (filterLyricsContent ("hello").data) ([['x']] : List (List Char)) ⟨0, 0, []⟩).sum /
        (([['x']] : List (List Char)).length : ℚ) < 9/20 →
      alignLyricsToSubtitles (fun _ _ => (0 : ℚ)) ("hello").data ([['x']] : List (List Char)) =
        { ok := false, reason := some "low_confidence",
          confidence := some
            ((cueScores (fun _ _ => (0 : ℚ)) (filterLyricsContent ("hello").data) ([['x']] : List (List Char)) ⟨0, 0, []⟩).sum /
              (([['x']] : List (List Char)).length : ℚ)),
          aligned := some
            (contentLoop (fun _ _ => (0 : ℚ)) (filterLyricsContent ("hello").data) ([['x']] : List (List Char)) ⟨0, 0, []⟩).aligned }) ∧
    (9/20 ≤ (cueScores (fun _ _ => (0 : ℚ)) (filterLyricsContent ("hello").data) ([['x']] : List (List Char)) ⟨0, 0, []⟩).sum /
        (([['x']] : List (List Char)).length : ℚ) →
      alignLyricsToSubtitles (fun _ _ => (0 : ℚ)) ("hello").data ([['x']] : List (List Char)) =
        { ok := true,
          aligned := some
            (contentLoop (fun _ _ => (0 : ℚ)) (filterLyricsContent ("hello").data) ([['x']] : List (List Char)) ⟨0, 0, []⟩).aligned,
          confidence := some
            ((cueScores (fun _ _ => (0 : ℚ)) (filterLyricsContent ("hello").data) ([['x']] : List (List Char)) ⟨0, 0, []⟩).sum /
              (([['x']] : List (List Char)).length : ℚ)),
          method := some "kuroshiro-content-matching" })) :=
  ⟨by decide, by decide,
   contentAligner_confidence (fun _ _ => (0 : ℚ)) ("hello").data [['x']]
     (by decide) (by decide)⟩

end YtRomaji
